import Mathlib

/-!
Verification of the epic-orchestration and parallel-execution-safety core.

This file shallowly embeds the relevant Python modules:
  - template/tools/epic_registry/epic_selector.py
  - template/tools/epic_registry/dependency_resolver.py
  - implementation/worktree_manager/worktree_manager.py
  - implementation/worktree_manager/cleanup.py
  - implementation/parallel_detection.py

Conventions of the embedding:
  - Python `datetime` values are modelled as integers (an arbitrary monotone
    timeline); `timedelta(days = n)` is `n * 86400` on that timeline.
  - Filesystem and git effects are modelled as explicit state
    (metadata directory as an association list keyed by file name, the archive
    directory as an append-only list, the set of existing worktree directories
    as a list of paths) together with an environment of oracles deciding
    whether each external git / filesystem command succeeds.
  - A Python function that may raise is modelled as returning the final state
    paired with `Except String Unit`; an uncaught exception is `.error`
    carrying the message, and the state component is the state at the moment
    the exception escapes (Python side effects performed before the raise are
    kept).
  - Python's stable `list.sort(key = k)` is modelled by a stable insertion
    sort `stableSort`; any two stable sorts with the same comparison agree
    elementwise, so this is extensionally the sort Python performs.
-/

namespace Tier1

/-! ### Generic stable sort (model of Python's stable `list.sort`) -/

/-- Insert `x` into `l` before the first element `y` with `lt y x = false`.
For a strict comparison this is the insertion step of a stable
insertion sort: among key-equal elements the earlier one stays first. -/
def stableInsert {α : Type} (lt : α → α → Bool) (x : α) : List α → List α
  | [] => [x]
  | y :: ys => if lt y x then y :: stableInsert lt x ys else x :: y :: ys

/-- Stable sort by the strict comparison `lt`; extensionally equal to Python's
`list.sort` with the corresponding key. -/
def stableSort {α : Type} (lt : α → α → Bool) : List α → List α
  | [] => []
  | x :: xs => stableInsert lt x (stableSort lt xs)

theorem stableInsert_perm {α : Type} (lt : α → α → Bool) (x : α) (l : List α) :
    List.Perm (stableInsert lt x l) (x :: l) := by
  induction l with
  | nil => simp [stableInsert]
  | cons y ys ih =>
    simp only [stableInsert]
    split
    · exact (ih.cons y).trans (List.Perm.swap x y ys)
    · exact List.Perm.refl _

theorem stableSort_perm {α : Type} (lt : α → α → Bool) (l : List α) :
    List.Perm (stableSort lt l) l := by
  induction l with
  | nil => simp [stableSort]
  | cons x xs ih =>
    exact (stableInsert_perm lt x (stableSort lt xs)).trans (ih.cons x)

theorem mem_stableSort {α : Type} (lt : α → α → Bool) (l : List α) (a : α) :
    a ∈ stableSort lt l ↔ a ∈ l :=
  (stableSort_perm lt l).mem_iff

theorem stableInsert_pairwise {α : Type} (lt : α → α → Bool)
    (hasym : ∀ a b, lt a b = true → lt b a = false)
    (hneg : ∀ a b c, lt b a = false → lt c b = false → lt c a = false)
    (x : α) (l : List α) (hl : l.Pairwise (fun a b => lt b a = false)) :
    (stableInsert lt x l).Pairwise (fun a b => lt b a = false) := by
  induction l with
  | nil => simp [stableInsert]
  | cons y ys ih =>
    rcases List.pairwise_cons.mp hl with ⟨hy, hys⟩
    simp only [stableInsert]
    split
    · rename_i hyx
      refine List.pairwise_cons.mpr ⟨?_, ih hys⟩
      intro z hz
      rcases List.mem_cons.mp ((stableInsert_perm lt x ys).mem_iff.mp hz) with hz' | hz'
      · subst hz'; exact hasym y z hyx
      · exact hy z hz'
    · rename_i hyx
      have hyx' : lt y x = false := by
        cases h : lt y x
        · rfl
        · exact absurd h hyx
      refine List.pairwise_cons.mpr ⟨?_, hl⟩
      intro z hz
      rcases List.mem_cons.mp hz with hz' | hz'
      · subst hz'; exact hyx'
      · exact hneg x y z hyx' (hy z hz')

theorem stableSort_pairwise {α : Type} (lt : α → α → Bool)
    (hasym : ∀ a b, lt a b = true → lt b a = false)
    (hneg : ∀ a b c, lt b a = false → lt c b = false → lt c a = false)
    (l : List α) :
    (stableSort lt l).Pairwise (fun a b => lt b a = false) := by
  induction l with
  | nil => simp [stableSort]
  | cons x xs ih => exact stableInsert_pairwise lt hasym hneg x _ ih

/-- The head of a stable sort is minimal: no element of the input is
strictly below it. -/
theorem stableSort_head_min {α : Type} (lt : α → α → Bool)
    (hasym : ∀ a b, lt a b = true → lt b a = false)
    (hneg : ∀ a b c, lt b a = false → lt c b = false → lt c a = false)
    (l : List α) (e : α) (he : (stableSort lt l).head? = some e) :
    ∀ x ∈ l, lt x e = false := by
  intro x hx
  cases hsort : stableSort lt l with
  | nil => rw [hsort] at he; simp at he
  | cons h t =>
    rw [hsort] at he
    simp only [List.head?_cons, Option.some.injEq] at he
    subst he
    have hx' : x ∈ stableSort lt l := (mem_stableSort lt l x).mpr hx
    rw [hsort] at hx'
    rcases List.mem_cons.mp hx' with hx2 | hx2
    · subst hx2
      cases hlt : lt x x
      · rfl
      · have h2 := hasym x x hlt
        rw [hlt] at h2
        exact h2
    · have hp := stableSort_pairwise lt hasym hneg l
      rw [hsort] at hp
      exact (List.pairwise_cons.mp hp).1 x hx2

/-! ### Epic data model (template/tools/epic_registry/models.py)

Only the fields read by the selector and the dependency resolver are kept;
the remaining metadata fields (title, slug, dates other than the creation
date, GitHub linkage, statistics, ...) are never consulted by the functions
under verification. -/

/-- Epic lifecycle states (`EpicStatus`). -/
inductive EpicStatus : Type
  | defined
  | prepared
  | ready
  | implemented
  | archived
deriving DecidableEq

/-- Epic dependency relationships (`EpicDependencies`). -/
structure EpicDependencies : Type where
  blocks : List String
  blocked_by : List String
  integrates_with : List String
deriving DecidableEq

/-- Epic metadata (`Epic`); fields not read by the embedded functions are
omitted. `created_date` is the `YYYY-MM-DD` string the source compares
lexicographically via Python tuple comparison. -/
structure Epic : Type where
  epic_id : String
  status : EpicStatus
  created_date : String
  tags : List String
  dependencies : EpicDependencies
deriving DecidableEq

/-- Root registry structure (`EpicRegistryData`); only the epic list is read
by the selector and resolver. -/
structure EpicRegistryData : Type where
  epics : List Epic
deriving DecidableEq

/-- The data-model invariant that `epic_id` values are unique
(spec section 3: epic ids are never reused). -/
abbrev NodupIds (r : EpicRegistryData) : Prop :=
  (r.epics.map (fun e => e.epic_id)).Nodup

/-! ### Epic selector (template/tools/epic_registry/epic_selector.py) -/

/-- Lookup in `priority_map = critical 0, high 1, medium 2, low 3`. -/
def tagPriority (t : String) : Option Nat :=
  if t = "critical" then some 0
  else if t = "high" then some 1
  else if t = "medium" then some 2
  else if t = "low" then some 3
  else none

/-- `get_priority`: first tag found in the priority map, default 2 (medium). -/
def get_priority (e : Epic) : Nat :=
  (e.tags.findSome? tagPriority).getD 2

/-- `sort_key`: the tuple `(get_priority(epic), epic.created_date)` compared
lexicographically, as Python compares key tuples. -/
def sort_key (e : Epic) : Lex (Nat × String) :=
  toLex (get_priority e, e.created_date)

/-- Strict comparison on sort keys, used by the stable sort. -/
def epicLt (a b : Epic) : Bool :=
  decide (sort_key a < sort_key b)

/-- `is_blocked(epic, registry_data)`: true iff some `block_id` in
`blocked_by` resolves (via first match on `epic_id`) to an epic whose status
is not `implemented`; unresolved ids do not block. -/
def is_blocked (e : Epic) (r : EpicRegistryData) : Bool :=
  e.dependencies.blocked_by.any (fun bid =>
    match r.epics.find? (fun x => x.epic_id = bid) with
    | some blocker => decide (blocker.status ≠ EpicStatus.implemented)
    | none => false)

/-- `get_ready_unblocked_epics`: ready epics that are not blocked. -/
def get_ready_unblocked_epics (r : EpicRegistryData) : List Epic :=
  (r.epics.filter (fun e => e.status = EpicStatus.ready)).filter
    (fun e => !is_blocked e r)

/-- `select_next_epic`: filter to ready, drop blocked, stable-sort by
`(priority, created_date)`, return the first element (or none). -/
def select_next_epic (r : EpicRegistryData) : Option Epic :=
  let ready := r.epics.filter (fun e => e.status = EpicStatus.ready)
  if ready.isEmpty then none
  else
    let unblocked := ready.filter (fun e => !is_blocked e r)
    if unblocked.isEmpty then none
    else (stableSort epicLt unblocked).head?

theorem epicLt_asym : ∀ a b, epicLt a b = true → epicLt b a = false := by
  intro a b h
  simp only [epicLt, decide_eq_true_eq] at h
  simp only [epicLt, decide_eq_false_iff_not]
  exact lt_asymm h

theorem epicLt_negtrans :
    ∀ a b c, epicLt b a = false → epicLt c b = false → epicLt c a = false := by
  intro a b c h1 h2
  simp only [epicLt, decide_eq_false_iff_not, not_lt] at h1 h2 ⊢
  exact h1.trans h2

/-- Claim C1: `select_next_epic` considers exactly the ready, unblocked epics
(`get_ready_unblocked_epics`) and returns a minimum of that list under the
lexicographic ordering on `(priority rank, creation date)`; it returns `none`
iff that list is empty; and whenever one candidate has a strictly smaller key
than every other candidate (equal priority with strictly earlier date, or
strictly higher priority regardless of date), that candidate is returned. -/
theorem select_next_epic_spec (r : EpicRegistryData) :
    (select_next_epic r = none ↔ get_ready_unblocked_epics r = []) ∧
    (∀ e, select_next_epic r = some e →
      e ∈ get_ready_unblocked_epics r ∧
      ∀ x ∈ get_ready_unblocked_epics r, sort_key e ≤ sort_key x) ∧
    (∀ e, e ∈ get_ready_unblocked_epics r →
      (∀ x ∈ get_ready_unblocked_epics r, x ≠ e → sort_key e < sort_key x) →
      select_next_epic r = some e) := by
  have hru : get_ready_unblocked_epics r =
      (r.epics.filter (fun e => e.status = EpicStatus.ready)).filter
        (fun e => !is_blocked e r) := rfl
  have hmain : (select_next_epic r = none ↔ get_ready_unblocked_epics r = []) ∧
      (∀ e, select_next_epic r = some e →
        e ∈ get_ready_unblocked_epics r ∧
        ∀ x ∈ get_ready_unblocked_epics r, sort_key e ≤ sort_key x) := by
    by_cases h1 : (r.epics.filter (fun e => e.status = EpicStatus.ready)).isEmpty = true
    · have hnil : r.epics.filter (fun e => e.status = EpicStatus.ready) = [] :=
        List.isEmpty_iff.mp h1
      have hsel : select_next_epic r = none := by
        rw [select_next_epic]
        simp only [h1, if_true]
      constructor
      · rw [hsel, hru, hnil]
        simp
      · intro e he
        rw [hsel] at he
        exact absurd he (by simp)
    · rw [Bool.not_eq_true] at h1
      by_cases h2 : ((r.epics.filter (fun e => e.status = EpicStatus.ready)).filter
          (fun e => !is_blocked e r)).isEmpty = true
      · have hnil : get_ready_unblocked_epics r = [] := by
          rw [hru]; exact List.isEmpty_iff.mp h2
        have hsel : select_next_epic r = none := by
          rw [select_next_epic]
          simp only [h1, h2, Bool.false_eq_true, if_false, if_true]
        constructor
        · rw [hsel, hnil]; simp
        · intro e he
          rw [hsel] at he
          exact absurd he (by simp)
      · rw [Bool.not_eq_true] at h2
        have hne : get_ready_unblocked_epics r ≠ [] := by
          rw [hru]; intro hc
          rw [hc] at h2; simp at h2
      -- in this branch the selector returns the head of the stable sort
        have hsel : select_next_epic r =
            (stableSort epicLt (get_ready_unblocked_epics r)).head? := by
          rw [select_next_epic]
          simp only [h1, h2, Bool.false_eq_true, if_false]
          rw [hru]
        constructor
        · rw [hsel]
          constructor
          · intro hnone
            have := List.head?_eq_none_iff.mp hnone
            have hperm := stableSort_perm epicLt (get_ready_unblocked_epics r)
            rw [this] at hperm
            exact absurd hperm.symm.eq_nil hne
          · intro hc; exact absurd hc hne
        · intro e he
          rw [hsel] at he
          have hmem : e ∈ stableSort epicLt (get_ready_unblocked_epics r) :=
            List.mem_of_mem_head? (by rw [he]; exact Option.mem_some_iff.mpr rfl)
          refine ⟨(mem_stableSort _ _ _).mp hmem, ?_⟩
          intro x hx
          have hflt := stableSort_head_min epicLt epicLt_asym epicLt_negtrans
            (get_ready_unblocked_epics r) e he x hx
          simp only [epicLt, decide_eq_false_iff_not, not_lt] at hflt
          exact hflt
  refine ⟨hmain.1, hmain.2, ?_⟩
  intro e he hstrict
  have hne : get_ready_unblocked_epics r ≠ [] := by
    intro hc; rw [hc] at he; exact absurd he (List.not_mem_nil e)
  cases hsel : select_next_epic r with
  | none => exact absurd (hmain.1.mp hsel) hne
  | some e0 =>
    rcases hmain.2 e0 hsel with ⟨hmem0, hmin0⟩
    by_cases heq : e0 = e
    · subst heq; rfl
    · have hx1 := hstrict e0 hmem0 heq
      have hx2 := hmin0 e he
      exact absurd hx1 (not_lt.mpr hx2)

/-- Witness for C1: a concrete registry with two ready, unblocked epics of
different priorities; the selector returns the higher-priority one even
though it has the later creation date. -/
theorem select_next_epic_spec_witness :
    select_next_epic
      (EpicRegistryData.mk
        [Epic.mk "EPIC-002" EpicStatus.ready "2024-02-05" ["high"]
          (EpicDependencies.mk [] [] []),
         Epic.mk "EPIC-001" EpicStatus.ready "2024-03-03" ["critical"]
          (EpicDependencies.mk [] [] [])]) =
      some (Epic.mk "EPIC-001" EpicStatus.ready "2024-03-03" ["critical"]
        (EpicDependencies.mk [] [] [])) := by
  apply (select_next_epic_spec _).2.2
  · decide
  · decide

/-- Claim C2: `is_blocked` is true iff some id in `blocked_by` names a
registered epic whose status is not `implemented`; unresolved blocker ids
never block, and an empty `blocked_by` list never blocks.  Stated for
registries satisfying the unique-`epic_id` invariant of the data model. -/
theorem is_blocked_spec (r : EpicRegistryData) (e : Epic) (h : NodupIds r) :
    (is_blocked e r = true ↔
      ∃ bid ∈ e.dependencies.blocked_by,
        ∃ b ∈ r.epics, b.epic_id = bid ∧ b.status ≠ EpicStatus.implemented) ∧
    (e.dependencies.blocked_by = [] → is_blocked e r = false) := by
  constructor
  · rw [is_blocked, List.any_eq_true]
    constructor
    · rintro ⟨bid, hbid, hf⟩
      refine ⟨bid, hbid, ?_⟩
      cases hfind : r.epics.find? (fun x => x.epic_id = bid) with
      | none => rw [hfind] at hf; simp at hf
      | some blocker =>
        rw [hfind] at hf
        simp only [decide_eq_true_eq] at hf
        have hmem := List.mem_of_find?_eq_some hfind
        have hid := List.find?_some hfind
        simp only [decide_eq_true_eq] at hid
        exact ⟨blocker, hmem, hid, hf⟩
    · rintro ⟨bid, hbid, b, hb, hid, hst⟩
      refine ⟨bid, hbid, ?_⟩
      have hs : (r.epics.find? (fun x => x.epic_id = bid)).isSome = true :=
        List.find?_isSome.mpr ⟨b, hb, by simp [hid]⟩
      cases hfind : r.epics.find? (fun x => x.epic_id = bid) with
      | none => rw [hfind] at hs; simp at hs
      | some blocker =>
        have hmem := List.mem_of_find?_eq_some hfind
        have hid2 := List.find?_some hfind
        simp only [decide_eq_true_eq] at hid2
        have hbe : blocker = b :=
          List.inj_on_of_nodup_map h hmem hb (by rw [hid2, hid])
        simp [hbe, hst]
  · intro hnil
    rw [is_blocked, hnil]
    rfl

/-- Witness for C2: a concrete two-epic registry where EPIC-002 is blocked by
the not-yet-implemented EPIC-001, and an epic with no blockers is unblocked. -/
theorem is_blocked_spec_witness :
    (is_blocked
      (Epic.mk "EPIC-002" EpicStatus.ready "2024-02-05" []
        (EpicDependencies.mk [] ["EPIC-001"] []))
      (EpicRegistryData.mk
        [Epic.mk "EPIC-001" EpicStatus.ready "2024-01-03" []
          (EpicDependencies.mk [] [] []),
         Epic.mk "EPIC-002" EpicStatus.ready "2024-02-05" []
          (EpicDependencies.mk [] ["EPIC-001"] [])]) = true ↔
      ∃ bid ∈ ["EPIC-001"],
        ∃ b ∈ (EpicRegistryData.mk
          [Epic.mk "EPIC-001" EpicStatus.ready "2024-01-03" []
            (EpicDependencies.mk [] [] []),
           Epic.mk "EPIC-002" EpicStatus.ready "2024-02-05" []
            (EpicDependencies.mk [] ["EPIC-001"] [])]).epics,
          b.epic_id = bid ∧ b.status ≠ EpicStatus.implemented) :=
  (is_blocked_spec _ _ (by decide)).1

/-! ### Dependency resolver (template/tools/epic_registry/dependency_resolver.py) -/

/-- One `d[k] = v` assignment on a Python dict modelled as an association
list in key-insertion order: overwrite the value if the key is present,
otherwise append the new binding. -/
def dictInsert {β : Type} (d : List (String × β)) (k : String) (v : β) :
    List (String × β) :=
  if d.any (fun p => p.1 = k) then
    d.map (fun p => if p.1 = k then (k, v) else p)
  else d ++ [(k, v)]

/-- `get_dependency_graph`: the dict mapping each `epic_id` to a copy of its
`blocked_by` list, built by iterating the epic list in order. -/
def get_dependency_graph (r : EpicRegistryData) : List (String × List String) :=
  r.epics.foldl (fun g e => dictInsert g e.epic_id e.dependencies.blocked_by) []

/-- `graph.get(node, [])`. -/
def lookupDeps (g : List (String × List String)) (k : String) : List String :=
  match g.find? (fun p => p.1 = k) with
  | some p => p.2
  | none => []

/-- Edge of the dependency graph: `b` appears in the `blocked_by` list the
graph associates to `a`. -/
def GEdge (g : List (String × List String)) (a b : String) : Prop :=
  b ∈ lookupDeps g a

instance (g : List (String × List String)) (a b : String) :
    Decidable (GEdge g a b) :=
  inferInstanceAs (Decidable (b ∈ lookupDeps g a))

/-- A `blocked_by` edge of the registry itself: some registered epic with id
`a` lists `b` in its `blocked_by`. -/
abbrev REdge (r : EpicRegistryData) (a b : String) : Prop :=
  ∃ e ∈ r.epics, e.epic_id = a ∧ b ∈ e.dependencies.blocked_by

instance (r : EpicRegistryData) (a b : String) : Decidable (REdge r a b) :=
  decidable_of_iff
    (r.epics.any (fun e =>
      decide (e.epic_id = a) && decide (b ∈ e.dependencies.blocked_by)) = true)
    (by simp [List.any_eq_true])

/-- A dependency cycle presented the way `find_dependency_cycle` returns one:
at least two entries, consecutive entries are edges, and the first entry
equals the last (so the edge closing the cycle is listed explicitly). -/
abbrev IsCycleListG (g : List (String × List String)) (l : List String) : Prop :=
  2 ≤ l.length ∧ List.Chain' (GEdge g) l ∧ l.head? = l.getLast?

/-- The same cycle notion over the registry's own `blocked_by` edges.
Every node of such a cycle has an outgoing edge, hence is a registered epic:
this is exactly a cycle of the `blocked_by` edges restricted to registered
epics. -/
abbrev IsCycleListR (r : EpicRegistryData) (l : List String) : Prop :=
  2 ≤ l.length ∧ List.Chain' (REdge r) l ∧ l.head? = l.getLast?

/-- Universe of node names the depth-first search can ever touch: the dict
keys together with every id mentioned in some `blocked_by` list. -/
def depGraphUniv (g : List (String × List String)) : Finset String :=
  (g.map Prod.fst).toFinset ∪ (g.map Prod.snd).flatten.toFinset

/-- The recursive `dfs` of `find_dependency_cycle`, written as a single
function over the list of still-unscanned neighbours of the path's last
node. `path` is the active recursion path including the current node; it
carries exactly the elements of the Python `rec_stack` (each active call
adds its node to both and removes it from `rec_stack` on normal return), so
the `neighbor in rec_stack` test is a membership test on `path`.  The
Python code tests `neighbor not in visited` first and `neighbor in
rec_stack` otherwise; the two tests are nested here the other way around
(with `rec_stack ⊆ visited` they are exhaustive in the same way).  The
returned set is the final `visited`; the subset proof carried in the result
type records that `visited` only grows.  The `n ∈ univ` test has no Python
counterpart: every node reached is in `univ` (see `dfsN_stays_in_univ`
style preconditions in the lemmas below), the test only bounds the
recursion. -/
def dfsN (g : List (String × List String)) (univ : Finset String) :
    (ns : List String) → (path : List String) → (visited : Finset String) →
    {r : Option (List String) × Finset String // visited ⊆ r.2}
  | [], _, visited => ⟨(none, visited), Finset.Subset.refl _⟩
  | n :: ns, path, visited =>
    if hn : n ∈ visited then
      if n ∈ path then
        ⟨(some (path.drop (path.indexOf n) ++ [n]), visited), Finset.Subset.refl _⟩
      else
        dfsN g univ ns path visited
    else
      if hu : n ∈ univ then
        match dfsN g univ (lookupDeps g n) (path ++ [n]) (insert n visited) with
        | ⟨(some c, v1), h1⟩ =>
          ⟨(some c, v1), ((Finset.subset_insert n visited).trans h1)⟩
        | ⟨(none, v1), h1⟩ =>
          let r2 := dfsN g univ ns path v1
          ⟨r2.val, (((Finset.subset_insert n visited).trans h1).trans r2.property)⟩
      else
        ⟨(none, visited), Finset.Subset.refl _⟩
termination_by ns path visited => ((univ \ visited).card, ns.length)
decreasing_by
  · exact Prod.Lex.right _ (Nat.lt_succ_self _)
  · apply Prod.Lex.left
    apply Finset.card_lt_card
    constructor
    · intro x hx
      rcases Finset.mem_sdiff.mp hx with ⟨hx1, hx2⟩
      exact Finset.mem_sdiff.mpr ⟨hx1, fun hc => hx2 (Finset.mem_insert_of_mem hc)⟩
    · intro hsub
      have hmem : n ∈ univ \ visited := Finset.mem_sdiff.mpr ⟨hu, hn⟩
      have h2 := hsub hmem
      rcases Finset.mem_sdiff.mp h2 with ⟨_, hni⟩
      exact hni (Finset.mem_insert_self n visited)
  · rcases Nat.lt_or_ge ((univ \ v1).card) ((univ \ visited).card) with hlt | hge
    · exact Prod.Lex.left _ _ hlt
    · exfalso
      have hsub : univ \ v1 ⊆ univ \ visited := by
        intro x hx
        rcases Finset.mem_sdiff.mp hx with ⟨hx1, hx2⟩
        refine Finset.mem_sdiff.mpr ⟨hx1, fun hc => hx2 ?_⟩
        exact h1 (Finset.mem_insert_of_mem hc)
      have hne : n ∈ univ \ visited := Finset.mem_sdiff.mpr ⟨hu, hn⟩
      have hnn : n ∉ univ \ v1 := by
        intro hc
        rcases Finset.mem_sdiff.mp hc with ⟨_, hc2⟩
        exact hc2 (h1 (Finset.mem_insert_self n visited))
      have hssub : univ \ v1 ⊂ univ \ visited := ⟨hsub, fun hc => hnn (hc hne)⟩
      exact absurd (Finset.card_lt_card hssub) (Nat.not_lt.mpr hge)

/-- Top-level loop of `find_dependency_cycle`: iterate the dict keys in
order, launching a depth-first search from every not-yet-visited key (the
body of the Python `dfs(node, path)` call is inlined: mark the node
visited, put it on the path, scan its neighbours). -/
def findCycleLoop (g : List (String × List String)) (univ : Finset String) :
    List String → Finset String → Option (List String)
  | [], _ => none
  | k :: ks, visited =>
    if k ∈ visited then findCycleLoop g univ ks visited
    else
      if k ∈ univ then
        match dfsN g univ (lookupDeps g k) [k] (insert k visited) with
        | ⟨(some c, _), _⟩ => some c
        | ⟨(none, v1), _⟩ => findCycleLoop g univ ks v1
      else findCycleLoop g univ ks visited

/-- `find_dependency_cycle`: DFS over the `blocked_by` adjacency, returning
the cycle as the path segment from the first occurrence of the repeated
node through the repeat, or nothing if the graph is acyclic.  The embedding
is a total function: the Python code raises nothing on any input. -/
def find_dependency_cycle (r : EpicRegistryData) : Option (List String) :=
  let g := get_dependency_graph r
  findCycleLoop g (depGraphUniv g) (g.map Prod.fst) ∅

/-- Initial in-degree table of `topological_sort`: zero for every registered
id, plus one increment for every occurrence of the id in some registered
epic's `blocked_by` list (occurrences naming no registered epic are
skipped by the `if dep in in_degree` guard). -/
def kahnIndeg0 (g : List (String × List String)) (keys : List String) :
    String → Int := fun k =>
  if k ∈ keys then ((keys.map (fun j => (lookupDeps g j).count k)).sum : Nat) else 0

/-- The `while queue` loop of `topological_sort`: pop the head, append it to
the result, then walk all dict entries decrementing the in-degree of every
epic whose `blocked_by` contains the popped node, enqueueing entries that
reach zero. -/
def kahnLoop (g : List (String × List String)) (keys : List String) :
    (String → Int) → List String → List String → List String
  | _, [], result => result
  | indeg, node :: rest, result =>
    let indeg2 : String → Int :=
      fun k => if node ∈ lookupDeps g k then indeg k - 1 else indeg k
    let enq := keys.filter
      (fun k => decide (node ∈ lookupDeps g k) && decide (indeg2 k = 0))
    kahnLoop g keys indeg2 (rest ++ enq) (result ++ [node])
termination_by indeg queue _ =>
  queue.length + (keys.map (fun k => (indeg k).toNat)).sum
decreasing_by
  simp only [dite_eq_ite]
  have hpoint : ∀ k ∈ keys,
      ((if node ∈ lookupDeps g k then indeg k - 1 else indeg k).toNat +
        (if (decide (node ∈ lookupDeps g k) &&
             decide ((if node ∈ lookupDeps g k then indeg k - 1 else indeg k) = 0))
         then 1 else 0)) ≤ (indeg k).toNat := by
    intro k _
    by_cases hmem : node ∈ lookupDeps g k
    · by_cases hz : indeg k - 1 = 0
      · simp only [hmem, if_true, hz, decide_True, Bool.and_self, Int.toNat_zero]
        omega
      · simp only [hmem, if_true, hz, decide_True, decide_False, Bool.and_false,
          Bool.false_eq_true, if_false]
        omega
    · simp only [hmem, if_false, decide_False, Bool.false_and, Bool.false_eq_true, if_false]
      omega
  have hsum : ((keys.filter
        (fun k => decide (node ∈ lookupDeps g k) &&
          decide ((if node ∈ lookupDeps g k then indeg k - 1 else indeg k) = 0))).length +
      (keys.map (fun k =>
        (if node ∈ lookupDeps g k then indeg k - 1 else indeg k).toNat)).sum)
      ≤ (keys.map (fun k => (indeg k).toNat)).sum := by
    have hlen : ∀ (l : List String) (p : String → Bool),
        (l.filter p).length = (l.map (fun k => if p k then 1 else 0)).sum := by
      intro l p
      induction l with
      | nil => simp
      | cons a t ih =>
        by_cases hp : p a
        · simp only [List.filter_cons, hp, if_true, List.length_cons, List.map_cons,
            List.sum_cons, ih]
          omega
        · simp only [List.filter_cons, hp, Bool.false_eq_true, if_false, List.map_cons,
            List.sum_cons, ih]
          omega
    rw [hlen]
    have hadd : ∀ (l : List String) (f f2 : String → Nat),
        ((l.map f).sum + (l.map f2).sum) = (l.map (fun k => f k + f2 k)).sum := by
      intro l f f2
      induction l with
      | nil => simp
      | cons a t ih => simp [List.map_cons, List.sum_cons]; omega
    rw [Nat.add_comm, hadd]
    exact List.sum_le_sum (by
      intro k hk
      exact hpoint k hk)
  simp only [List.length_append, List.length_cons]
  omega

/-- `topological_sort`: build the in-degree table, enqueue the zero-degree
ids in key order, run the loop, and fail with a hard error when the result
does not cover every epic. -/
def topological_sort (r : EpicRegistryData) : Except String (List String) :=
  let g := get_dependency_graph r
  let keys := g.map Prod.fst
  let queue0 := keys.filter (fun k => kahnIndeg0 g keys k = 0)
  let result := kahnLoop g keys (kahnIndeg0 g keys) queue0 []
  if result.length ≠ r.epics.length then Except.error "Circular dependency detected"
  else Except.ok result

/-! ### Association-list (dict) facts -/

theorem dictInsert_of_not_mem {β : Type} (d : List (String × β)) (k : String)
    (v : β) (h : k ∉ d.map Prod.fst) : dictInsert d k v = d ++ [(k, v)] := by
  rw [dictInsert, if_neg]
  intro hc
  rcases List.any_eq_true.mp hc with ⟨p, hp, hpk⟩
  simp only [decide_eq_true_eq] at hpk
  exact h (hpk ▸ List.mem_map_of_mem Prod.fst hp)

theorem foldl_dictInsert_eq (es : List Epic) :
    ∀ (g0 : List (String × List String)),
    (∀ e ∈ es, e.epic_id ∉ g0.map Prod.fst) →
    (es.map (fun e => e.epic_id)).Nodup →
    es.foldl (fun g e => dictInsert g e.epic_id e.dependencies.blocked_by) g0
      = g0 ++ es.map (fun e => (e.epic_id, e.dependencies.blocked_by)) := by
  induction es with
  | nil => intro g0 _ _; simp
  | cons e es ih =>
    intro g0 hfresh hnd
    simp only [List.foldl_cons]
    rw [dictInsert_of_not_mem _ _ _ (hfresh e (List.mem_cons_self e es))]
    rw [List.map_cons, List.nodup_cons] at hnd
    rw [ih (g0 ++ [(e.epic_id, e.dependencies.blocked_by)]) ?_ hnd.2]
    · simp
    · intro e2 he2
      rw [List.map_append, List.mem_append]
      rintro (hc | hc)
      · exact hfresh e2 (List.mem_cons_of_mem e he2) hc
      · simp only [List.map_cons, List.map_nil, List.mem_singleton] at hc
        exact hnd.1 (hc ▸ List.mem_map_of_mem (fun x => x.epic_id) he2)

/-- Under the unique-id invariant the dependency-graph dict is just the list
of `(epic_id, blocked_by)` pairs in registry order. -/
theorem get_dependency_graph_eq (r : EpicRegistryData) (h : NodupIds r) :
    get_dependency_graph r
      = r.epics.map (fun e => (e.epic_id, e.dependencies.blocked_by)) := by
  rw [get_dependency_graph, foldl_dictInsert_eq r.epics [] (by simp) h]
  simp

theorem lookupDeps_graph (r : EpicRegistryData) (h : NodupIds r) (a : String) :
    lookupDeps (get_dependency_graph r) a =
      (match r.epics.find? (fun e => e.epic_id = a) with
       | some e => e.dependencies.blocked_by
       | none => []) := by
  rw [lookupDeps, get_dependency_graph_eq r h, List.find?_map]
  cases hf : r.epics.find? (fun e => e.epic_id = a) with
  | none =>
    have : r.epics.find?
        ((fun p => decide (p.1 = a)) ∘ fun e => (e.epic_id, e.dependencies.blocked_by))
        = none := by
      rw [← hf]
      rfl
    rw [this]
    rfl
  | some e =>
    have : r.epics.find?
        ((fun p => decide (p.1 = a)) ∘ fun e => (e.epic_id, e.dependencies.blocked_by))
        = some e := by
      rw [← hf]
      rfl
    rw [this]
    rfl

/-- Under the unique-id invariant, graph edges and registry `blocked_by`
edges coincide. -/
theorem gedge_iff_redge (r : EpicRegistryData) (h : NodupIds r) (a b : String) :
    GEdge (get_dependency_graph r) a b ↔ REdge r a b := by
  rw [GEdge, lookupDeps_graph r h]
  constructor
  · intro hmem
    cases hf : r.epics.find? (fun e => e.epic_id = a) with
    | none =>
      rw [hf] at hmem
      exact absurd hmem (List.not_mem_nil b)
    | some e =>
      rw [hf] at hmem
      have hid := List.find?_some hf
      simp only [decide_eq_true_eq] at hid
      have hmem2 : b ∈ e.dependencies.blocked_by := hmem
      exact ⟨e, List.mem_of_find?_eq_some hf, hid, hmem2⟩
  · rintro ⟨e, he, hid, hbb⟩
    have hs : (r.epics.find? (fun e => e.epic_id = a)).isSome = true :=
      List.find?_isSome.mpr ⟨e, he, by simp [hid]⟩
    cases hf : r.epics.find? (fun e => e.epic_id = a) with
    | none => rw [hf] at hs; simp at hs
    | some e2 =>
      have hid2 := List.find?_some hf
      simp only [decide_eq_true_eq] at hid2
      have he2 : e2 = e :=
        List.inj_on_of_nodup_map h (List.mem_of_find?_eq_some hf) he (by rw [hid2, hid])
      show b ∈ e2.dependencies.blocked_by
      rw [he2]
      exact hbb

theorem cycle_g_iff_r (r : EpicRegistryData) (h : NodupIds r) (l : List String) :
    IsCycleListG (get_dependency_graph r) l ↔ IsCycleListR r l := by
  constructor
  · rintro ⟨h1, h2, h3⟩
    exact ⟨h1, h2.imp (fun a b hab => (gedge_iff_redge r h a b).mp hab), h3⟩
  · rintro ⟨h1, h2, h3⟩
    exact ⟨h1, h2.imp (fun a b hab => (gedge_iff_redge r h a b).mpr hab), h3⟩

/-! ### The Kahn loop never performs a decrement

A node enters the queue only with in-degree zero, i.e. only when no
registered epic's `blocked_by` list contains it; but the decrement scan
fires exactly for the entries whose `blocked_by` contains the popped node,
so it never fires, nothing is ever enqueued by the loop, and the loop
simply drains its initial queue.  (This is the inconsistency between the
increment direction and the decrement direction of the source; see the
claim theorems below.) -/

theorem kahnLoop_no_edges (g : List (String × List String)) (keys : List String) :
    ∀ (queue : List String) (indeg : String → Int) (result : List String),
    (∀ q ∈ queue, ∀ j ∈ keys, q ∉ lookupDeps g j) →
    kahnLoop g keys indeg queue result = result ++ queue := by
  intro queue
  induction queue with
  | nil => intro indeg result _; simp [kahnLoop]
  | cons node rest ih =>
    intro indeg result h
    rw [kahnLoop]
    have henq : keys.filter
        (fun k => decide (node ∈ lookupDeps g k) &&
          decide ((if node ∈ lookupDeps g k then indeg k - 1 else indeg k) = 0)) = [] := by
      apply List.filter_eq_nil_iff.mpr
      intro k hk
      have hnm := h node (List.mem_cons_self node rest) k hk
      simp [hnm]
    simp only [henq, List.append_nil]
    rw [ih _ (result ++ [node]) (fun q hq j hj => h q (List.mem_cons_of_mem node hq) j hj)]
    simp

/-- Closed form of `topological_sort`: the result list is exactly the keys
with initial in-degree zero, in key order. -/
theorem topological_sort_eq (r : EpicRegistryData) :
    topological_sort r =
      (if (((get_dependency_graph r).map Prod.fst).filter
            (fun k => kahnIndeg0 (get_dependency_graph r)
              ((get_dependency_graph r).map Prod.fst) k = 0)).length ≠ r.epics.length
       then Except.error "Circular dependency detected"
       else Except.ok (((get_dependency_graph r).map Prod.fst).filter
            (fun k => kahnIndeg0 (get_dependency_graph r)
              ((get_dependency_graph r).map Prod.fst) k = 0))) := by
  rw [topological_sort]
  have hq : ∀ q ∈ ((get_dependency_graph r).map Prod.fst).filter
      (fun k => kahnIndeg0 (get_dependency_graph r)
        ((get_dependency_graph r).map Prod.fst) k = 0),
      ∀ j ∈ (get_dependency_graph r).map Prod.fst,
      q ∉ lookupDeps (get_dependency_graph r) j := by
    intro q hq j hj
    rcases List.mem_filter.mp hq with ⟨hqk, hq0⟩
    simp only [decide_eq_true_eq] at hq0
    rw [kahnIndeg0, if_pos hqk] at hq0
    have hsum : (((get_dependency_graph r).map Prod.fst).map
        (fun j => (lookupDeps (get_dependency_graph r) j).count q)).sum = 0 := by
      exact_mod_cast hq0
    have hcount := List.sum_eq_zero_iff.mp hsum ((lookupDeps (get_dependency_graph r) j).count q)
      (List.mem_map_of_mem _ hj)
    exact List.count_eq_zero.mp hcount
  rw [kahnLoop_no_edges _ _ _ _ [] hq]
  simp

/-! ### Structure of cycles and the error behaviour of `topological_sort` -/

theorem gedge_fst_mem_keys (g : List (String × List String)) (a b : String)
    (h : GEdge g a b) : a ∈ g.map Prod.fst := by
  rw [GEdge, lookupDeps] at h
  cases hf : g.find? (fun p => p.1 = a) with
  | none =>
    rw [hf] at h
    exact absurd h (List.not_mem_nil b)
  | some p =>
    have hp := List.find?_some hf
    simp only [decide_eq_true_eq] at hp
    exact hp ▸ List.mem_map_of_mem Prod.fst (List.mem_of_find?_eq_some hf)

theorem gedge_snd_mem_univ (g : List (String × List String)) (a b : String)
    (h : GEdge g a b) : b ∈ depGraphUniv g := by
  rw [GEdge, lookupDeps] at h
  cases hf : g.find? (fun p => p.1 = a) with
  | none =>
    rw [hf] at h
    exact absurd h (List.not_mem_nil b)
  | some p =>
    rw [hf] at h
    have hpm := List.mem_of_find?_eq_some hf
    refine Finset.mem_union_right _ (List.mem_toFinset.mpr ?_)
    exact List.mem_flatten.mpr ⟨p.2, List.mem_map_of_mem Prod.snd hpm, h⟩

theorem keys_mem_univ (g : List (String × List String)) (a : String)
    (h : a ∈ g.map Prod.fst) : a ∈ depGraphUniv g :=
  Finset.mem_union_left _ (List.mem_toFinset.mpr h)

/-- Every member of a cycle has a successor inside the cycle. -/
theorem cycle_succ (g : List (String × List String)) (l : List String)
    (hc : IsCycleListG g l) : ∀ y ∈ l, ∃ s ∈ l, GEdge g y s := by
  rcases hc with ⟨hlen, hchain, hhl⟩
  intro y hy
  rcases List.mem_iff_get.mp hy with ⟨⟨i, hi⟩, hget⟩
  have hchain' := List.chain'_iff_get.mp hchain
  by_cases hlast : i < l.length - 1
  · exact ⟨l.get ⟨i + 1, by omega⟩, List.get_mem l (i + 1) (by omega),
      hget ▸ hchain' i hlast⟩
  · have hieq : i = l.length - 1 := by omega
    have h0 : l.head? = some (l.get ⟨0, by omega⟩) := by
      rw [List.head?_eq_getElem?, List.getElem?_eq_getElem (by omega : 0 < l.length)]
      rfl
    have hL : l.getLast? = some (l.get ⟨l.length - 1, by omega⟩) := by
      rw [List.getLast?_eq_getElem?,
        List.getElem?_eq_getElem (by omega : l.length - 1 < l.length)]
      rfl
    have hy0 : l.get ⟨0, by omega⟩ = y := by
      subst hieq
      have h3 := hhl
      rw [h0, hL] at h3
      exact (Option.some.inj h3).trans hget
    exact ⟨l.get ⟨1, by omega⟩, List.get_mem l 1 (by omega),
      hy0 ▸ hchain' 0 (by omega)⟩

/-- Every member of a cycle is a dict key (a registered id). -/
theorem cycle_mem_keys (g : List (String × List String)) (l : List String)
    (hc : IsCycleListG g l) : ∀ y ∈ l, y ∈ g.map Prod.fst := by
  intro y hy
  rcases cycle_succ g l hc y hy with ⟨s, _, hedge⟩
  exact gedge_fst_mem_keys g y s hedge

theorem filter_length_lt {α : Type} (l : List α) (p : α → Bool) (a : α)
    (ha : a ∈ l) (hp : p a = false) : (l.filter p).length < l.length := by
  induction l with
  | nil => exact absurd ha (List.not_mem_nil a)
  | cons x t ih =>
    rcases List.mem_cons.mp ha with h | h
    · subst h
      rw [List.filter_cons, if_neg (by simp [hp])]
      exact Nat.lt_succ_of_le (List.length_filter_le p t)
    · rw [List.filter_cons]
      by_cases hx : p x
      · rw [if_pos (by simp [hx])]
        simpa using ih h
      · rw [if_neg (by simp [hx])]
        exact Nat.lt_succ_of_lt (ih h)

theorem graph_length_le (r : EpicRegistryData) :
    (get_dependency_graph r).length ≤ r.epics.length := by
  rw [get_dependency_graph]
  have hgen : ∀ (es : List Epic) (g0 : List (String × List String)),
      (es.foldl (fun g e => dictInsert g e.epic_id e.dependencies.blocked_by) g0).length
        ≤ g0.length + es.length := by
    intro es
    induction es with
    | nil => intro g0; simp
    | cons e t ih =>
      intro g0
      rw [List.foldl_cons]
      refine (ih _).trans ?_
      have hone : (dictInsert g0 e.epic_id e.dependencies.blocked_by).length
          ≤ g0.length + 1 := by
        rw [dictInsert]
        split
        · simp
        · simp
      simp only [List.length_cons]
      omega
  simpa using hgen r.epics []

/-- Whenever some registered epic's `blocked_by` names a registered epic,
`topological_sort` fails: the increment pass gives the named blocker a
positive in-degree, but the decrement pass (which scans for entries whose
`blocked_by` contains the popped node) can never fire for a node that
entered the queue with in-degree zero, so the blocker never reaches the
result list. -/
theorem topological_sort_error_of_gedge (r : EpicRegistryData) (a b : String)
    (hedge : GEdge (get_dependency_graph r) a b)
    (hbkeys : b ∈ (get_dependency_graph r).map Prod.fst) :
    topological_sort r = Except.error "Circular dependency detected" := by
  rw [topological_sort_eq, if_pos]
  have hakeys := gedge_fst_mem_keys _ _ _ hedge
  have hpos : kahnIndeg0 (get_dependency_graph r)
      ((get_dependency_graph r).map Prod.fst) b ≠ 0 := by
    rw [kahnIndeg0, if_pos hbkeys]
    have hcount : 0 < (lookupDeps (get_dependency_graph r) a).count b :=
      List.count_pos_iff.mpr hedge
    have hle : (lookupDeps (get_dependency_graph r) a).count b ≤
        (((get_dependency_graph r).map Prod.fst).map
          (fun j => (lookupDeps (get_dependency_graph r) j).count b)).sum :=
      List.single_le_sum (by intro x _; exact Nat.zero_le x) _
        (List.mem_map_of_mem _ hakeys)
    have : 0 < (((get_dependency_graph r).map Prod.fst).map
        (fun j => (lookupDeps (get_dependency_graph r) j).count b)).sum := by omega
    exact_mod_cast Nat.pos_iff_ne_zero.mp this
  have hlt := filter_length_lt ((get_dependency_graph r).map Prod.fst)
    (fun k => decide (kahnIndeg0 (get_dependency_graph r)
      ((get_dependency_graph r).map Prod.fst) k = 0)) b hbkeys (by simp [hpos])
  have hlen : ((get_dependency_graph r).map Prod.fst).length ≤ r.epics.length := by
    rw [List.length_map]
    exact graph_length_le r
  omega

/-! ### Branch equations for `dfsN` -/

theorem dfsN_nil (g : List (String × List String)) (univ : Finset String)
    (path : List String) (visited : Finset String) :
    (dfsN g univ [] path visited).val = (none, visited) := by
  simp [dfsN]

theorem dfsN_cons_visited_inpath (g : List (String × List String))
    (univ : Finset String) (n : String) (ns path : List String)
    (visited : Finset String) (hn : n ∈ visited) (hp : n ∈ path) :
    (dfsN g univ (n :: ns) path visited).val =
      (some (path.drop (path.indexOf n) ++ [n]), visited) := by
  rw [dfsN]
  rw [dif_pos hn, if_pos hp]

theorem dfsN_cons_visited_notpath (g : List (String × List String))
    (univ : Finset String) (n : String) (ns path : List String)
    (visited : Finset String) (hn : n ∈ visited) (hp : n ∉ path) :
    (dfsN g univ (n :: ns) path visited).val =
      (dfsN g univ ns path visited).val := by
  rw [dfsN]
  rw [dif_pos hn, if_neg hp]

theorem dfsN_cons_fresh_some (g : List (String × List String))
    (univ : Finset String) (n : String) (ns path : List String)
    (visited : Finset String) (hn : n ∉ visited) (hu : n ∈ univ)
    (c : List String) (v1 : Finset String)
    (h1 : insert n visited ⊆ (some c, v1).2)
    (heq : dfsN g univ (lookupDeps g n) (path ++ [n]) (insert n visited)
      = ⟨(some c, v1), h1⟩) :
    (dfsN g univ (n :: ns) path visited).val = (some c, v1) := by
  rw [dfsN]
  rw [dif_neg hn, dif_pos hu, heq]

theorem dfsN_cons_fresh_none (g : List (String × List String))
    (univ : Finset String) (n : String) (ns path : List String)
    (visited : Finset String) (hn : n ∉ visited) (hu : n ∈ univ)
    (v1 : Finset String) (h1 : insert n visited ⊆ (none, v1).2)
    (heq : dfsN g univ (lookupDeps g n) (path ++ [n]) (insert n visited)
      = ⟨(none, v1), h1⟩) :
    (dfsN g univ (n :: ns) path visited).val =
      (dfsN g univ ns path v1).val := by
  rw [dfsN]
  rw [dif_neg hn, dif_pos hu, heq]

theorem dfsN_cons_fresh_notuniv (g : List (String × List String))
    (univ : Finset String) (n : String) (ns path : List String)
    (visited : Finset String) (hn : n ∉ visited) (hu : n ∉ univ) :
    (dfsN g univ (n :: ns) path visited).val = (none, visited) := by
  rw [dfsN]
  rw [dif_neg hn, dif_neg hu]

/-- Soundness of the depth-first search: whatever the scan returns is a
genuine cycle of the graph.  The hypotheses say that `path` is a real
edge-path and that every pending neighbour in `ns` is a successor of the
last node of `path`. -/
theorem dfsN_sound (g : List (String × List String)) (univ : Finset String) :
    ∀ (ns path : List String) (visited : Finset String),
    ∀ lastp, path.getLast? = some lastp →
    List.Chain' (GEdge g) path →
    (∀ n ∈ ns, GEdge g lastp n) →
    ∀ c v1, (dfsN g univ ns path visited).val = (some c, v1) →
    IsCycleListG g c := by
  intro ns path visited
  induction ns, path, visited using dfsN.induct g univ with
  | case1 path visited =>
    intro lastp _ _ _ c v1 hval
    rw [dfsN_nil] at hval
    exact absurd (congrArg Prod.fst hval) (by simp)
  | case2 n ns path visited hn hp =>
    intro lastp hlast hchain hedge c v1 hval
    rw [dfsN_cons_visited_inpath g univ n ns path visited hn hp] at hval
    have hidx : path.indexOf n < path.length := List.indexOf_lt_length.mpr hp
    have hcval : some (path.drop (path.indexOf n) ++ [n]) = some c :=
      congrArg Prod.fst hval
    have hc2 : path.drop (path.indexOf n) ++ [n] = c := Option.some.inj hcval
    subst hc2
    have hdlen : (path.drop (path.indexOf n)).length = path.length - path.indexOf n :=
      List.length_drop _ _
    constructor
    · rw [List.length_append]
      simp only [List.length_cons, List.length_nil]
      omega
    constructor
    · rw [List.chain'_append]
      refine ⟨hchain.suffix (List.drop_suffix _ _), List.chain'_singleton n, ?_⟩
      intro x hx y hy
      simp only [List.head?_cons, Option.mem_def, Option.some.injEq] at hy
      subst hy
      rw [List.getLast?_drop, if_neg (by omega)] at hx
      rw [hlast] at hx
      simp only [Option.mem_def, Option.some.injEq] at hx
      subst hx
      exact hedge n (List.mem_cons_self n ns)
    · rw [List.getLast?_concat]
      have hhead : (path.drop (path.indexOf n) ++ [n]).head? = some n := by
        rw [List.head?_append_of_ne_nil]
        · rw [List.head?_drop, List.getElem?_eq_getElem hidx, List.getElem_indexOf hidx]
        · intro hcon
          have := List.length_drop (path.indexOf n) path
          rw [hcon] at this
          simp at this
          omega
      rw [hhead]
  | case3 n ns path visited hn hp ih =>
    intro lastp hlast hchain hedge c v1 hval
    rw [dfsN_cons_visited_notpath g univ n ns path visited hn hp] at hval
    exact ih lastp hlast hchain
      (fun m hm => hedge m (List.mem_cons_of_mem n hm)) c v1 hval
  | case4 n ns path visited hn hu c0 v0 h1 heq ih =>
    intro lastp hlast hchain hedge c v1 hval
    rw [dfsN_cons_fresh_some g univ n ns path visited hn hu c0 v0 h1 heq] at hval
    have hcc : c0 = c := (Option.some.inj (congrArg Prod.fst hval))
    subst hcc
    refine ih n (List.getLast?_concat _) ?_ ?_ c0 v0 (by rw [heq])
    · rw [List.chain'_append]
      refine ⟨hchain, List.chain'_singleton n, ?_⟩
      intro x hx y hy
      simp only [List.head?_cons, Option.mem_def, Option.some.injEq] at hy
      subst hy
      rw [hlast] at hx
      simp only [Option.mem_def, Option.some.injEq] at hx
      subst hx
      exact hedge n (List.mem_cons_self n ns)
    · intro m hm
      exact hm
  | case5 n ns path visited hn hu v0 h1 heq ih1 ih2 =>
    intro lastp hlast hchain hedge c v1 hval
    rw [dfsN_cons_fresh_none g univ n ns path visited hn hu v0 h1 heq] at hval
    exact ih2 lastp hlast hchain
      (fun m hm => hedge m (List.mem_cons_of_mem n hm)) c v1 hval
  | case6 n ns path visited hn hu =>
    intro lastp _ _ _ c v1 hval
    rw [dfsN_cons_fresh_notuniv g univ n ns path visited hn hu] at hval
    exact absurd (congrArg Prod.fst hval) (by simp)

/-- Every member of a cycle has a predecessor inside the cycle. -/
theorem cycle_pred (g : List (String × List String)) (l : List String)
    (hc : IsCycleListG g l) : ∀ y ∈ l, ∃ x ∈ l, GEdge g x y := by
  rcases hc with ⟨hlen, hchain, hhl⟩
  intro y hy
  rcases List.mem_iff_get.mp hy with ⟨⟨i, hi⟩, hget⟩
  have hchain' := List.chain'_iff_get.mp hchain
  by_cases hzero : 0 < i
  · refine ⟨l.get ⟨i - 1, by omega⟩, List.get_mem l (i - 1) (by omega), ?_⟩
    have he := hchain' (i - 1) (by omega)
    have he2 : l.get ⟨i - 1 + 1, by omega⟩ = y := by
      rw [← hget]
      congr 1
      exact Fin.ext (show i - 1 + 1 = i by omega)
    rw [← he2]
    exact he
  · have hizero : i = 0 := by omega
    subst hizero
    have h0 : l.head? = some (l.get ⟨0, by omega⟩) := by
      rw [List.head?_eq_getElem?, List.getElem?_eq_getElem (by omega : 0 < l.length)]
      rfl
    have hL : l.getLast? = some (l.get ⟨l.length - 1, by omega⟩) := by
      rw [List.getLast?_eq_getElem?,
        List.getElem?_eq_getElem (by omega : l.length - 1 < l.length)]
      rfl
    have hylast : l.get ⟨l.length - 1, by omega⟩ = y := by
      have h3 := hhl
      rw [h0, hL] at h3
      exact (Option.some.inj h3).symm.trans hget
    refine ⟨l.get ⟨l.length - 2, by omega⟩, List.get_mem l (l.length - 2) (by omega), ?_⟩
    have he := hchain' (l.length - 2) (by omega)
    have he2 : l.get ⟨l.length - 2 + 1, by omega⟩ = y := by
      rw [← hylast]
      congr 1
      exact Fin.ext (show l.length - 2 + 1 = l.length - 1 by omega)
    rw [← he2]
    exact he

/-- Completeness invariant of the depth-first search.  If the scan of `ns`
finishes without reporting a cycle then: every scanned neighbour is
visited and off the active path; every newly visited node has all its
successors visited and none of them on the active path (a successor on the
path would have been reported as a cycle); and any cycle that lies inside
the final visited set off the path already lay inside the initial visited
set off the path. -/
theorem dfsN_complete (g : List (String × List String)) (univ : Finset String)
    (huniv : ∀ a b, GEdge g a b → b ∈ univ) :
    ∀ (ns path : List String) (visited : Finset String),
    ∀ v1, (dfsN g univ ns path visited).val = (none, v1) →
    (∀ x ∈ path, x ∈ visited) →
    (∀ n ∈ ns, n ∈ univ) →
    (∀ x ∈ visited, x ∉ path → ∀ s, GEdge g x s → s ∈ visited) →
    ((∀ n ∈ ns, n ∈ v1) ∧
     (∀ n ∈ ns, n ∉ path) ∧
     (∀ x ∈ v1, x ∉ visited → ∀ s, GEdge g x s → s ∉ path ∧ s ∈ v1) ∧
     (∀ C, IsCycleListG g C → (∀ y ∈ C, y ∈ v1 ∧ y ∉ path) →
        (∀ y ∈ C, y ∈ visited ∧ y ∉ path))) := by
  intro ns path visited
  induction ns, path, visited using dfsN.induct g univ with
  | case1 path visited =>
    intro v1 hval hpre1 hpre3 hpre2
    rw [dfsN_nil] at hval
    have hv : visited = v1 := congrArg Prod.snd hval
    subst hv
    refine ⟨by simp, by simp, ?_, ?_⟩
    · intro x hx hnx
      exact absurd hx hnx
    · intro C _ hC y hy
      exact hC y hy
  | case2 n ns path visited hn hp =>
    intro v1 hval hpre1 hpre3 hpre2
    rw [dfsN_cons_visited_inpath g univ n ns path visited hn hp] at hval
    exact absurd (congrArg Prod.fst hval) (by simp)
  | case3 n ns path visited hn hp ih =>
    intro v1 hval hpre1 hpre3 hpre2
    rw [dfsN_cons_visited_notpath g univ n ns path visited hn hp] at hval
    have hmono : visited ⊆ v1 := by
      have hpr := (dfsN g univ ns path visited).property
      rw [hval] at hpr
      exact hpr
    rcases ih v1 hval hpre1 (fun m hm => hpre3 m (List.mem_cons_of_mem n hm)) hpre2
      with ⟨tc1, tc1x, tc4, tc5⟩
    refine ⟨?_, ?_, tc4, tc5⟩
    · intro m hm
      rcases List.mem_cons.mp hm with hm2 | hm2
      · subst hm2; exact hmono hn
      · exact tc1 m hm2
    · intro m hm
      rcases List.mem_cons.mp hm with hm2 | hm2
      · subst hm2; exact hp
      · exact tc1x m hm2
  | case4 n ns path visited hn hu c0 v0 h1 heq ih =>
    intro v1 hval hpre1 hpre3 hpre2
    rw [dfsN_cons_fresh_some g univ n ns path visited hn hu c0 v0 h1 heq] at hval
    exact absurd (congrArg Prod.fst hval) (by simp)
  | case5 n ns path visited hn hu v0 h1 heq ih1 ih2 =>
    intro v1 hval hpre1 hpre3 hpre2
    rw [dfsN_cons_fresh_none g univ n ns path visited hn hu v0 h1 heq] at hval
    have hm0 : insert n visited ⊆ v0 := h1
    have hm1 : v0 ⊆ v1 := by
      have hpr := (dfsN g univ ns path v0).property
      rw [hval] at hpr
      exact hpr
    have hnp : n ∉ path := fun hc => hn (hpre1 n hc)
    -- child call conclusions
    have hvalc : (dfsN g univ (lookupDeps g n) (path ++ [n]) (insert n visited)).val
        = (none, v0) := by rw [heq]
    have hpre1c : ∀ x ∈ path ++ [n], x ∈ insert n visited := by
      intro x hx
      rcases List.mem_append.mp hx with hx2 | hx2
      · exact Finset.mem_insert_of_mem (hpre1 x hx2)
      · simp only [List.mem_singleton] at hx2
        subst hx2
        exact Finset.mem_insert_self x visited
    have hpre3c : ∀ m ∈ lookupDeps g n, m ∈ univ := by
      intro m hm
      exact huniv n m hm
    have hpre2c : ∀ x ∈ insert n visited, x ∉ path ++ [n] →
        ∀ s, GEdge g x s → s ∈ insert n visited := by
      intro x hx hxp s hs
      rcases Finset.mem_insert.mp hx with hx2 | hx2
      · subst hx2
        exact absurd (List.mem_append.mpr (Or.inr (List.mem_singleton.mpr rfl))) hxp
      · have hxnp : x ∉ path := fun hc => hxp (List.mem_append.mpr (Or.inl hc))
        exact Finset.mem_insert_of_mem (hpre2 x hx2 hxnp s hs)
    rcases ih1 v0 hvalc hpre1c hpre3c hpre2c with ⟨cc1, cc1x, cc4, cc5⟩
    -- continuation call conclusions
    have hpre1t : ∀ x ∈ path, x ∈ v0 := by
      intro x hx
      exact hm0 (Finset.mem_insert_of_mem (hpre1 x hx))
    have hpre3t : ∀ m ∈ ns, m ∈ univ :=
      fun m hm => hpre3 m (List.mem_cons_of_mem n hm)
    have hpre2t : ∀ x ∈ v0, x ∉ path → ∀ s, GEdge g x s → s ∈ v0 := by
      intro x hx hxp s hs
      by_cases hxv : x ∈ insert n visited
      · rcases Finset.mem_insert.mp hxv with hx2 | hx2
        · subst hx2
          exact cc1 s hs
        · exact hm0 (Finset.mem_insert_of_mem (hpre2 x hx2 hxp s hs))
      · exact (cc4 x hx hxv s hs).2
    rcases ih2 v1 hval hpre1t hpre3t hpre2t with ⟨tc1, tc1x, tc4, tc5⟩
    refine ⟨?_, ?_, ?_, ?_⟩
    · intro m hm
      rcases List.mem_cons.mp hm with hm2 | hm2
      · subst hm2
        exact hm1 (hm0 (Finset.mem_insert_self m visited))
      · exact tc1 m hm2
    · intro m hm
      rcases List.mem_cons.mp hm with hm2 | hm2
      · subst hm2; exact hnp
      · exact tc1x m hm2
    · -- c4 for the composite call
      intro x hx hxv s hs
      by_cases hx0 : x ∈ v0
      · by_cases hxi : x ∈ insert n visited
        · rcases Finset.mem_insert.mp hxi with hx2 | hx2
          · subst hx2
            refine ⟨?_, hm1 (cc1 s hs)⟩
            have := cc1x s hs
            intro hc
            exact this (List.mem_append.mpr (Or.inl hc))
          · exact absurd hx2 hxv
        · rcases cc4 x hx0 hxi s hs with ⟨hs1, hs2⟩
          refine ⟨fun hc => hs1 (List.mem_append.mpr (Or.inl hc)), hm1 hs2⟩
      · exact tc4 x hx hx0 s hs
    · -- c5 for the composite call
      intro C hC hCset
      have hCv0 : ∀ y ∈ C, y ∈ v0 ∧ y ∉ path := tc5 C hC hCset
      have hnC : n ∉ C := by
        intro hnC
        rcases cycle_pred g C hC n hnC with ⟨x, hxC, hxe⟩
        rcases hCv0 x hxC with ⟨hxv0, hxnp⟩
        by_cases hxi : x ∈ insert n visited
        · rcases Finset.mem_insert.mp hxi with hx2 | hx2
          · subst hx2
            have := cc1x x hxe
            exact this (List.mem_append.mpr (Or.inr (List.mem_singleton.mpr rfl)))
          · exact hn (hpre2 x hx2 hxnp n hxe)
        · have := (cc4 x hxv0 hxi n hxe).1
          exact this (List.mem_append.mpr (Or.inr (List.mem_singleton.mpr rfl)))
      have hCc : ∀ y ∈ C, y ∈ v0 ∧ y ∉ path ++ [n] := by
        intro y hy
        rcases hCv0 y hy with ⟨hy1, hy2⟩
        refine ⟨hy1, ?_⟩
        intro hc
        rcases List.mem_append.mp hc with hc2 | hc2
        · exact hy2 hc2
        · simp only [List.mem_singleton] at hc2
          subst hc2
          exact hnC hy
      have hres := cc5 C hC hCc
      intro y hy
      rcases hres y hy with ⟨hy1, hy2⟩
      rcases Finset.mem_insert.mp hy1 with hy3 | hy3
      · subst hy3
        exact absurd hy (fun hc => hnC hc)
      · refine ⟨hy3, ?_⟩
        intro hc
        exact hy2 (List.mem_append.mpr (Or.inl hc))
  | case6 n ns path visited hn hu =>
    intro v1 hval hpre1 hpre3 hpre2
    exact absurd (hpre3 n (List.mem_cons_self n ns)) hu

theorem findCycleLoop_sound (g : List (String × List String)) (univ : Finset String) :
    ∀ (ks : List String) (visited : Finset String) (c : List String),
    findCycleLoop g univ ks visited = some c → IsCycleListG g c := by
  intro ks
  induction ks with
  | nil => intro visited c h; simp [findCycleLoop] at h
  | cons k ks ih =>
    intro visited c h
    rw [findCycleLoop] at h
    split at h
    · exact ih _ _ h
    · split at h
      · split at h
        · rename_i c2 v2 hprop heqd
          have hc2 : c2 = c := Option.some.inj h
          subst hc2
          exact dfsN_sound g univ (lookupDeps g k) [k] (insert k visited) k rfl
            (List.chain'_singleton k) (fun n hn => hn) c2 v2 (by rw [heqd])
        · exact ih _ _ h
      · exact ih _ _ h

theorem findCycleLoop_complete (g : List (String × List String))
    (univ : Finset String) (huniv : ∀ a b, GEdge g a b → b ∈ univ) :
    ∀ (ks : List String) (visited : Finset String),
    findCycleLoop g univ ks visited = none →
    (∀ k ∈ ks, k ∈ univ) →
    (∀ x ∈ visited, ∀ s, GEdge g x s → s ∈ visited) →
    (∀ C, IsCycleListG g C → ¬(∀ y ∈ C, y ∈ visited)) →
    (∀ C, IsCycleListG g C → ¬(∀ y ∈ C, y ∈ ks ∨ y ∈ visited)) := by
  intro ks
  induction ks with
  | nil =>
    intro visited _ _ _ hnoc C hC hfull
    refine hnoc C hC ?_
    intro y hy
    rcases hfull y hy with hy2 | hy2
    · exact absurd hy2 (List.not_mem_nil y)
    · exact hy2
  | cons k ks ih =>
    intro visited h hku hclo hnoc
    rw [findCycleLoop] at h
    split at h
    · rename_i hkv
      intro C hC hfull
      refine ih visited h (fun m hm => hku m (List.mem_cons_of_mem k hm)) hclo hnoc
        C hC ?_
      intro y hy
      rcases hfull y hy with hy2 | hy2
      · rcases List.mem_cons.mp hy2 with hy3 | hy3
        · subst hy3; exact Or.inr hkv
        · exact Or.inl hy3
      · exact Or.inr hy2
    · rename_i hkv
      split at h
      · rename_i hku2
        split at h
        · exact absurd h (by simp)
        · rename_i v1 hprop heqd
          have hval : (dfsN g univ (lookupDeps g k) [k] (insert k visited)).val
              = (none, v1) := by rw [heqd]
          have hm : insert k visited ⊆ v1 := by
            have hpr := (dfsN g univ (lookupDeps g k) [k] (insert k visited)).property
            rw [heqd] at hpr
            exact hpr
          have hpre1 : ∀ x ∈ [k], x ∈ insert k visited := by
            intro x hx
            rcases List.mem_singleton.mp hx with rfl
            exact Finset.mem_insert_self x visited
          have hpre3 : ∀ m ∈ lookupDeps g k, m ∈ univ := fun m hm2 => huniv k m hm2
          have hpre2 : ∀ x ∈ insert k visited, x ∉ [k] →
              ∀ s, GEdge g x s → s ∈ insert k visited := by
            intro x hx hxk s hs
            rcases Finset.mem_insert.mp hx with hx2 | hx2
            · subst hx2
              exact absurd (List.mem_singleton.mpr rfl) hxk
            · exact Finset.mem_insert_of_mem (hclo x hx2 s hs)
          rcases dfsN_complete g univ huniv (lookupDeps g k) [k] (insert k visited)
            v1 hval hpre1 hpre3 hpre2 with ⟨cc1, cc1x, cc4, cc5⟩
          have hclo1 : ∀ x ∈ v1, ∀ s, GEdge g x s → s ∈ v1 := by
            intro x hx s hs
            by_cases hxi : x ∈ insert k visited
            · rcases Finset.mem_insert.mp hxi with hx2 | hx2
              · subst hx2
                exact cc1 s hs
              · exact hm (Finset.mem_insert_of_mem (hclo x hx2 s hs))
            · exact (cc4 x hx hxi s hs).2
          have hnoc1 : ∀ C, IsCycleListG g C → ¬(∀ y ∈ C, y ∈ v1) := by
            intro C hC hCv
            by_cases hkC : k ∈ C
            · rcases cycle_pred g C hC k hkC with ⟨x, hxC, hxe⟩
              by_cases hxi : x ∈ insert k visited
              · rcases Finset.mem_insert.mp hxi with hx2 | hx2
                · rw [hx2] at hxe
                  exact cc1x k hxe (List.mem_singleton.mpr rfl)
                · exact hkv (hclo x hx2 k hxe)
              · exact (cc4 x (hCv x hxC) hxi k hxe).1 (List.mem_singleton.mpr rfl)
            · have hCset : ∀ y ∈ C, y ∈ v1 ∧ y ∉ [k] := by
                intro y hy
                refine ⟨hCv y hy, ?_⟩
                intro hc
                rcases List.mem_singleton.mp hc with rfl
                exact hkC hy
              have hres := cc5 C hC hCset
              rcases List.exists_mem_of_ne_nil C (by
                intro hc
                rcases hC with ⟨hlen, _, _⟩
                rw [hc] at hlen
                simp at hlen) with ⟨y, hy⟩
              rcases hres y hy with ⟨hy1, hy2⟩
              rcases Finset.mem_insert.mp hy1 with hy3 | hy3
              · subst hy3
                exact hkC hy
              · refine hnoc C hC ?_
                intro z hz
                rcases hres z hz with ⟨hz1, hz2⟩
                rcases Finset.mem_insert.mp hz1 with hz3 | hz3
                · subst hz3
                  exact absurd hz hkC
                · exact hz3
          intro C hC hfull
          refine ih v1 h (fun m hm2 => hku m (List.mem_cons_of_mem k hm2)) hclo1 hnoc1
            C hC ?_
          intro y hy
          rcases hfull y hy with hy2 | hy2
          · rcases List.mem_cons.mp hy2 with hy3 | hy3
            · subst hy3
              exact Or.inr (hm (Finset.mem_insert_self y visited))
            · exact Or.inl hy3
          · exact Or.inr (hm (Finset.mem_insert_of_mem hy2))
      · rename_i hku2
        exact absurd (hku k (List.mem_cons_self k ks)) hku2

theorem find_dependency_cycle_sound (r : EpicRegistryData) (c : List String)
    (h : find_dependency_cycle r = some c) :
    IsCycleListG (get_dependency_graph r) c :=
  findCycleLoop_sound _ _ _ _ _ h

theorem find_dependency_cycle_complete (r : EpicRegistryData)
    (h : find_dependency_cycle r = none) :
    ∀ C, ¬ IsCycleListG (get_dependency_graph r) C := by
  intro C hC
  refine findCycleLoop_complete (get_dependency_graph r) (depGraphUniv _)
    (fun a b hab => gedge_snd_mem_univ _ a b hab)
    ((get_dependency_graph r).map Prod.fst) ∅ h
    (fun k hk => keys_mem_univ _ k hk)
    (by intro x hx; exact absurd hx (Finset.not_mem_empty x))
    ?_ C hC ?_
  · intro C2 hC2 hfull
    rcases List.exists_mem_of_ne_nil C2 (by
      intro hc
      rcases hC2 with ⟨hlen, _, _⟩
      rw [hc] at hlen
      simp at hlen) with ⟨y, hy⟩
    exact absurd (hfull y hy) (Finset.not_mem_empty y)
  · intro y hy
    exact Or.inl (cycle_mem_keys _ C hC y hy)

/-- Claim C3: for a registry (satisfying the unique-id invariant) whose
`blocked_by` edges among registered epics contain a cycle,
`find_dependency_cycle` returns a path that is itself a cycle (non-empty,
consecutive edges, closing edge included, so its elements are exactly the
members of that cycle), and `topological_sort` fails with its hard error;
for an acyclic registry `find_dependency_cycle` returns `none`.  The
embedding of `find_dependency_cycle` is a total function, which models the
spec sentence that the diagnostic check never raises. -/
theorem find_dependency_cycle_spec (r : EpicRegistryData) (h : NodupIds r) :
    (∀ c, find_dependency_cycle r = some c → IsCycleListR r c) ∧
    ((∃ c, IsCycleListR r c) →
      (∃ c, find_dependency_cycle r = some c) ∧
      topological_sort r = Except.error "Circular dependency detected") ∧
    ((¬ ∃ c, IsCycleListR r c) → find_dependency_cycle r = none) := by
  refine ⟨?_, ?_, ?_⟩
  · intro c hc
    exact (cycle_g_iff_r r h c).mp (find_dependency_cycle_sound r c hc)
  · rintro ⟨c, hc⟩
    have hcg : IsCycleListG (get_dependency_graph r) c := (cycle_g_iff_r r h c).mpr hc
    constructor
    · cases hf : find_dependency_cycle r with
      | none => exact absurd hcg (find_dependency_cycle_complete r hf c)
      | some c2 => exact ⟨c2, rfl⟩
    · have hne : c ≠ [] := by
        intro hnil
        rcases hcg with ⟨hlen, _, _⟩
        rw [hnil] at hlen
        simp at hlen
      rcases List.exists_mem_of_ne_nil c hne with ⟨y, hy⟩
      rcases cycle_succ _ c hcg y hy with ⟨s, hsc, hedge⟩
      exact topological_sort_error_of_gedge r y s hedge (cycle_mem_keys _ c hcg s hsc)
  · intro hnoc
    cases hf : find_dependency_cycle r with
    | none => rfl
    | some c =>
      exact absurd ⟨c, (cycle_g_iff_r r h c).mp (find_dependency_cycle_sound r c hf)⟩ hnoc

/-- Witness for C3: the two-epic registry in which A and B block each other
has a cycle; the theorem then yields both the cycle report and the
topological-sort failure. -/
theorem find_dependency_cycle_spec_witness :
    (∃ c, find_dependency_cycle (EpicRegistryData.mk
      [Epic.mk "A" EpicStatus.defined "2024-01-01" [] (EpicDependencies.mk [] ["B"] []),
       Epic.mk "B" EpicStatus.defined "2024-01-02" [] (EpicDependencies.mk [] ["A"] [])])
        = some c) ∧
    topological_sort (EpicRegistryData.mk
      [Epic.mk "A" EpicStatus.defined "2024-01-01" [] (EpicDependencies.mk [] ["B"] []),
       Epic.mk "B" EpicStatus.defined "2024-01-02" [] (EpicDependencies.mk [] ["A"] [])])
      = Except.error "Circular dependency detected" :=
  (find_dependency_cycle_spec _ (by decide)).2.1 ⟨["A", "B", "A"], by
    refine ⟨by decide, ?_, rfl⟩
    refine List.chain'_cons.mpr ⟨?_, List.chain'_cons.mpr ⟨?_, List.chain'_singleton _⟩⟩
    · exact ⟨Epic.mk "A" EpicStatus.defined "2024-01-01" []
        (EpicDependencies.mk [] ["B"] []), by decide, rfl, by decide⟩
    · exact ⟨Epic.mk "B" EpicStatus.defined "2024-01-02" []
        (EpicDependencies.mk [] ["A"] []), by decide, rfl, by decide⟩⟩

/-- Claim C10 (code bug): on the acyclic two-epic registry in which EPIC-B
is blocked by EPIC-A, `topological_sort` nevertheless fails with
"Circular dependency detected".  The in-degree increments count, for each
id, the epics that depend on it, while the decrement scan looks for the
entries whose `blocked_by` contains the popped node; a node leaves the
queue only with in-degree zero, so no decrement ever fires and every id
with a registered dependent is unreachable.  The first conjunct (proved
through the cycle detector's completeness theorem) certifies that the
registry really is acyclic. -/
theorem topological_sort_acyclic_failure :
    (∀ C, ¬ IsCycleListR (EpicRegistryData.mk
      [Epic.mk "EPIC-A" EpicStatus.defined "2024-01-01" []
        (EpicDependencies.mk [] [] []),
       Epic.mk "EPIC-B" EpicStatus.defined "2024-01-02" []
        (EpicDependencies.mk [] ["EPIC-A"] [])]) C) ∧
    topological_sort (EpicRegistryData.mk
      [Epic.mk "EPIC-A" EpicStatus.defined "2024-01-01" []
        (EpicDependencies.mk [] [] []),
       Epic.mk "EPIC-B" EpicStatus.defined "2024-01-02" []
        (EpicDependencies.mk [] ["EPIC-A"] [])])
      = Except.error "Circular dependency detected" := by
  have hg : get_dependency_graph (EpicRegistryData.mk
      [Epic.mk "EPIC-A" EpicStatus.defined "2024-01-01" []
        (EpicDependencies.mk [] [] []),
       Epic.mk "EPIC-B" EpicStatus.defined "2024-01-02" []
        (EpicDependencies.mk [] ["EPIC-A"] [])])
      = [("EPIC-A", []), ("EPIC-B", ["EPIC-A"])] := by rfl
  have hnone : find_dependency_cycle (EpicRegistryData.mk
      [Epic.mk "EPIC-A" EpicStatus.defined "2024-01-01" []
        (EpicDependencies.mk [] [] []),
       Epic.mk "EPIC-B" EpicStatus.defined "2024-01-02" []
        (EpicDependencies.mk [] ["EPIC-A"] [])]) = none := by
    rw [find_dependency_cycle]
    simp only [hg]
    simp +decide [findCycleLoop, dfsN, lookupDeps, depGraphUniv]
  constructor
  · intro C hC
    exact find_dependency_cycle_complete _ hnone C
      ((cycle_g_iff_r _ (by decide) C).mpr hC)
  · rw [topological_sort_eq]
    rfl

/-! ### Worktree lifecycle manager
(implementation/worktree_manager/models.py, worktree_manager.py, cleanup.py)

State of the two file-backed stores and of the VCS view:
`meta` is the active metadata directory (one JSON file per worktree, keyed
by worktree name), `archive` the append-only archive directory (each
archived snapshot gets a timestamped unique filename, so the directory is a
growing list), `dirs` the set of existing worktree directories and
`branches` the existing feature branches.  `GitEnv` carries the outcome of
each external command (git worktree add / remove, shutil rmtree, git branch
delete) plus the current clock, all of which are environment inputs of the
Python code. -/

/-- Worktree lifecycle status (the `status` Literal of `WorktreeMetadata`). -/
inductive WtStatus : Type
  | created
  | assigned
  | in_progress
  | completed
  | failed
  | merged
  | cleaned
  | conflict
deriving DecidableEq

/-- `WorktreeMetadata` (models.py); datetimes are integers on an arbitrary
timeline, paths are strings. -/
structure WorktreeMetadata : Type where
  name : String
  epic_id : String
  task_name : String
  path : String
  branch : String
  base_branch : String
  agent_id : Option String
  status : WtStatus
  created_at : Int
  assigned_at : Option Int
  completed_at : Option Int
  merged_at : Option Int
  cleaned_at : Option Int
  github_sub_issue : Option Int
  commits : List String
  error_message : Option String
deriving DecidableEq

/-- The two metadata stores plus the VCS view. -/
structure WtState : Type where
  meta : List (String × WorktreeMetadata)
  archive : List WorktreeMetadata
  dirs : List String
  branches : List String
deriving DecidableEq

/-- Outcomes of the external commands and the current clock. -/
structure GitEnv : Type where
  removeOk : String → Bool
  rmtreeOk : String → Bool
  branchDeleteOk : String → Bool
  addOk : String → Bool
  now : Int

/-- `get_worktree_metadata`: read `{name}.json` from the metadata directory,
`none` when the file is missing. -/
def get_worktree_metadata (s : WtState) (worktree_name : String) :
    Option WorktreeMetadata :=
  (s.meta.find? (fun p => p.1 = worktree_name)).map Prod.snd

/-- `save_worktree_metadata`: write `{name}.json`, replacing any existing
file of that name. -/
def save_worktree_metadata (s : WtState) (metadata : WorktreeMetadata) : WtState :=
  { s with meta := s.meta.filter (fun p => p.1 ≠ metadata.name)
      ++ [(metadata.name, metadata)] }

/-- `archive_worktree_metadata`: write a snapshot into the archive
directory; the filename carries a timestamp, so repeated archival of the
same name never collides and the store is append-only. -/
def archive_worktree_metadata (s : WtState) (metadata : WorktreeMetadata) : WtState :=
  { s with archive := s.archive ++ [metadata] }

/-- The terminal states the cleanup gate accepts without `force`. -/
def cleanupTerminalStates : List WtStatus :=
  [WtStatus.completed, WtStatus.merged, WtStatus.failed, WtStatus.cleaned]

/-- The `git worktree remove` step of `cleanup_worktree`: try the git
removal (successful removal deletes the directory); on failure raise unless
`force`, in which case fall back to a raw recursive delete, raising if that
fails too.  A missing directory is only a logged warning. -/
def removeDirPhase (env : GitEnv) (s : WtState) (metadata : WorktreeMetadata)
    (force : Bool) : WtState × Except String Unit :=
  if metadata.path ∈ s.dirs then
    if env.removeOk metadata.path then
      ({ s with dirs := s.dirs.filter (fun d => d ≠ metadata.path) }, Except.ok ())
    else if force = false then
      (s, Except.error "Failed to remove worktree")
    else if env.rmtreeOk metadata.path then
      ({ s with dirs := s.dirs.filter (fun d => d ≠ metadata.path) }, Except.ok ())
    else
      (s, Except.error "Failed to manually remove directory")
  else
    (s, Except.ok ())

/-- The optional branch-deletion step of `cleanup_worktree` (`-D` when
forced, `-d` otherwise); a failure raises only when not forced. -/
def deleteBranchPhase (env : GitEnv) (s : WtState) (metadata : WorktreeMetadata)
    (delete_branch force : Bool) : WtState × Except String Unit :=
  if delete_branch then
    if env.branchDeleteOk metadata.branch then
      ({ s with branches := s.branches.filter (fun b => b ≠ metadata.branch) },
        Except.ok ())
    else if force = false then
      (s, Except.error "Failed to delete branch")
    else
      (s, Except.ok ())
  else
    (s, Except.ok ())

/-- The archive-then-delete tail of `cleanup_worktree`: stamp the record
`cleaned` with a cleanup timestamp, write the archived snapshot, delete the
active metadata file. -/
def archiveAndDeletePhase (env : GitEnv) (s : WtState) (metadata : WorktreeMetadata)
    (worktree_name : String) : WtState :=
  let md2 := { metadata with status := WtStatus.cleaned, cleaned_at := some env.now }
  let s2 := archive_worktree_metadata s md2
  { s2 with meta := s2.meta.filter (fun p => p.1 ≠ worktree_name) }

/-- Body of `cleanup_worktree` after the terminal-state gate: remove the
directory, optionally delete the branch, then archive and delete the
record; an exception in either phase propagates with the state reached so
far. -/
def cleanupBody (env : GitEnv) (s : WtState) (metadata : WorktreeMetadata)
    (worktree_name : String) (delete_branch force : Bool) :
    WtState × Except String Unit :=
  match removeDirPhase env s metadata force with
  | (s1, Except.error e) => (s1, Except.error e)
  | (s1, Except.ok _) =>
    match deleteBranchPhase env s1 metadata delete_branch force with
    | (s2, Except.error e) => (s2, Except.error e)
    | (s2, Except.ok _) =>
      (archiveAndDeletePhase env s2 metadata worktree_name, Except.ok ())

/-- `cleanup_worktree(worktree_name, delete_branch, force)`.  A missing
metadata record is a logged warning and a plain `return None` (no
exception).  A non-terminal status without `force` raises `ValueError`
before any mutation. -/
def cleanup_worktree (env : GitEnv) (s : WtState) (worktree_name : String)
    (delete_branch : Bool) (force : Bool) : WtState × Except String Unit :=
  match get_worktree_metadata s worktree_name with
  | none => (s, Except.ok ())
  | some metadata =>
    if metadata.status ∉ cleanupTerminalStates ∧ force = false then
      (s, Except.error ("Worktree " ++ worktree_name ++
        " is in state. Use force=True to cleanup non-terminal state."))
    else
      cleanupBody env s metadata worktree_name delete_branch force

/-- `list_worktrees(epic_id?, status?)`: all records, optionally filtered by
equality, sorted by creation time descending (Python's stable
`sort(key = created_at, reverse = True)`). -/
def list_worktrees (s : WtState) (epic_id : Option String)
    (status : Option WtStatus) : List WorktreeMetadata :=
  let worktrees := (s.meta.map Prod.snd).filter (fun md =>
    (match epic_id with
     | some e => decide (md.epic_id = e)
     | none => true) &&
    (match status with
     | some st => decide (md.status = st)
     | none => true))
  stableSort (fun a b => decide (b.created_at < a.created_at)) worktrees

/-- Collapse every whitespace run into a single hyphen (the `\s+` to `-`
substitution); the flag records whether the scan is inside a run. -/
def wsToHyphen (inRun : Bool) : List Char → List Char
  | [] => []
  | c :: rest =>
    if c.isWhitespace then
      if inRun then wsToHyphen true rest else '-' :: wsToHyphen true rest
    else c :: wsToHyphen false rest

/-- Collapse every hyphen run into a single hyphen (the `-+` to `-`
substitution). -/
def collapseHyphens (inRun : Bool) : List Char → List Char
  | [] => []
  | c :: rest =>
    if c = '-' then
      if inRun then collapseHyphens true rest else '-' :: collapseHyphens true rest
    else c :: collapseHyphens false rest

/-- `sanitize_name`: drop characters outside `[a-zA-Z0-9\s-]`, collapse
whitespace runs to hyphens, collapse hyphen runs, strip edge hyphens,
lowercase.  `Char.isWhitespace` / `Char.isAlphanum` / `Char.toLower` play
the roles of the regex classes (the names are ASCII in practice). -/
def sanitize_name (name : String) : String :=
  let cs := name.data.filter (fun c => c.isAlphanum || c.isWhitespace || c = '-')
  let cs := wsToHyphen false cs
  let cs := collapseHyphens false cs
  let cs := cs.dropWhile (fun c => c = '-')
  let cs := (cs.reverse.dropWhile (fun c => c = '-')).reverse
  String.mk (cs.map Char.toLower)

/-- `create_worktree_for_agent`: sanitize the task name, compose the
worktree name (the random uuid suffix is the environment input `short_id`),
path and feature-branch name, run `git worktree add`; only when that
succeeds construct the metadata record with status `created` and persist
it. -/
def create_worktree_for_agent (env : GitEnv) (s : WtState)
    (epic_id task_name base_branch project_root short_id : String) :
    WtState × Except String WorktreeMetadata :=
  let sanitized := sanitize_name task_name
  let worktree_name := epic_id ++ "-" ++ sanitized ++ "-" ++ short_id
  let worktree_path := project_root ++ "/.worktrees/" ++ worktree_name
  let branch_name := "feature/" ++ epic_id ++ "/" ++ sanitized
  if env.addOk worktree_path = false then
    (s, Except.error "Git worktree creation failed")
  else
    let metadata : WorktreeMetadata :=
      { name := worktree_name, epic_id := epic_id, task_name := task_name,
        path := worktree_path, branch := branch_name, base_branch := base_branch,
        agent_id := none, status := WtStatus.created, created_at := env.now,
        assigned_at := none, completed_at := none, merged_at := none,
        cleaned_at := none, github_sub_issue := none, commits := [],
        error_message := none }
    (save_worktree_metadata
      { s with dirs := s.dirs ++ [worktree_path],
               branches := s.branches ++ [branch_name] } metadata,
      Except.ok metadata)

/-- `cleanup_epic_worktrees(epic_id, delete_branches)`: filter the epic's
worktrees to terminal states, clean each one, log-and-continue on failure,
and return the number cleaned (a single integer). -/
def cleanup_epic_worktrees (env : GitEnv) (s : WtState) (epic_id : String)
    (delete_branches : Bool) : WtState × Nat :=
  let all_worktrees := list_worktrees s (some epic_id) none
  let cleanable_worktrees := all_worktrees.filter (fun wt =>
    wt.status ∈ [WtStatus.completed, WtStatus.merged, WtStatus.failed])
  if cleanable_worktrees.isEmpty then (s, 0)
  else
    cleanable_worktrees.foldl (fun acc wt =>
      match cleanup_worktree env acc.1 wt.name delete_branches false with
      | (s2, Except.ok _) => (s2, acc.2 + 1)
      | (s2, Except.error _) => (s2, acc.2)) (s, 0)

/-- Aggregate statistics returned by `cleanup_all_worktrees`. -/
structure CleanupStats : Type where
  total : Nat
  cleaned : Nat
  failed : Nat
deriving DecidableEq

/-- `cleanup_all_worktrees(include_active, delete_branches)`: candidates are
all worktrees, restricted to terminal states unless `include_active`; each
is cleaned with `force = include_active`, failures are counted and never
abort the sweep; returns the total / cleaned / failed dict. -/
def cleanup_all_worktrees (env : GitEnv) (s : WtState)
    (include_active delete_branches : Bool) : WtState × CleanupStats :=
  let all_worktrees := list_worktrees s none none
  let worktrees_to_clean :=
    if include_active = false then
      all_worktrees.filter (fun wt =>
        wt.status ∈ [WtStatus.completed, WtStatus.merged, WtStatus.failed])
    else all_worktrees
  let res := worktrees_to_clean.foldl (fun acc wt =>
    match cleanup_worktree env acc.1 wt.name delete_branches include_active with
    | (s2, Except.ok _) => (s2, acc.2.1 + 1, acc.2.2)
    | (s2, Except.error _) => (s2, acc.2.1, acc.2.2 + 1)) (s, 0, 0)
  (res.1, { total := worktrees_to_clean.length, cleaned := res.2.1,
            failed := res.2.2 })

/-- The age reference of the abandonment sweep:
`completed_at or assigned_at or created_at` (datetimes are always truthy in
Python, so `or` is None-coalescing here). -/
def abandonedCheckDate (wt : WorktreeMetadata) : Int :=
  match wt.completed_at with
  | some t => t
  | none =>
    match wt.assigned_at with
    | some t => t
    | none => wt.created_at

/-- Selection step of `cleanup_abandoned_worktrees`: the worktrees in a
non-terminal state (`created`, `assigned`, `in_progress`) whose age
reference is strictly older than `utcnow - timedelta(days = max_age_days)`. -/
def abandonedCandidates (env : GitEnv) (s : WtState) (max_age_days : Int) :
    List WorktreeMetadata :=
  let cutoff_date := env.now - max_age_days * 86400
  (list_worktrees s none none).filter (fun wt =>
    decide (wt.status ∈ [WtStatus.created, WtStatus.assigned, WtStatus.in_progress])
      && decide (abandonedCheckDate wt < cutoff_date))

/-- `cleanup_abandoned_worktrees(max_age_days)`: select the non-terminal
worktrees whose age reference is older than `utcnow - max_age_days`, then
force-clean each with branch deletion, tolerating individual failures;
returns the number cleaned. -/
def cleanup_abandoned_worktrees (env : GitEnv) (s : WtState)
    (max_age_days : Int) : WtState × Nat :=
  let abandoned_worktrees := abandonedCandidates env s max_age_days
  if abandoned_worktrees.isEmpty then (s, 0)
  else
    abandoned_worktrees.foldl (fun acc wt =>
      match cleanup_worktree env acc.1 wt.name true true with
      | (s2, Except.ok _) => (s2, acc.2 + 1)
      | (s2, Except.error _) => (s2, acc.2)) (s, 0)

/-! ### Facts about the cleanup phases -/

theorem removeDirPhase_meta (env : GitEnv) (s : WtState) (md : WorktreeMetadata)
    (force : Bool) :
    ((removeDirPhase env s md force).1).meta = s.meta ∧
    ((removeDirPhase env s md force).1).archive = s.archive := by
  rw [removeDirPhase]
  split
  · split
    · exact ⟨rfl, rfl⟩
    · split
      · exact ⟨rfl, rfl⟩
      · split
        · exact ⟨rfl, rfl⟩
        · exact ⟨rfl, rfl⟩
  · exact ⟨rfl, rfl⟩

theorem deleteBranchPhase_meta (env : GitEnv) (s : WtState) (md : WorktreeMetadata)
    (delete_branch force : Bool) :
    ((deleteBranchPhase env s md delete_branch force).1).meta = s.meta ∧
    ((deleteBranchPhase env s md delete_branch force).1).archive = s.archive := by
  rw [deleteBranchPhase]
  split
  · split
    · exact ⟨rfl, rfl⟩
    · split
      · exact ⟨rfl, rfl⟩
      · exact ⟨rfl, rfl⟩
  · exact ⟨rfl, rfl⟩

theorem find?_filter_of_imp {α : Type} (l : List α) (p q : α → Bool)
    (h : ∀ x, p x = true → q x = true) :
    (l.filter q).find? p = l.find? p := by
  induction l with
  | nil => simp
  | cons x t ih =>
    by_cases hq : q x
    · rw [List.filter_cons, if_pos (by simp [hq])]
      by_cases hp : p x
      · rw [List.find?_cons_of_pos _ hp, List.find?_cons_of_pos _ hp]
      · rw [List.find?_cons_of_neg _ (by simp [hp]),
          List.find?_cons_of_neg _ (by simp [hp])]
        exact ih
    · rw [List.filter_cons, if_neg (by simp [hq])]
      have hp : p x = false := by
        cases hpx : p x
        · rfl
        · exact absurd (h x hpx) hq
      rw [List.find?_cons_of_neg _ (by simp [hp])]
      exact ih

/-- Looking up one name after deleting another name's file is unchanged. -/
theorem find?_filter_ne (meta : List (String × WorktreeMetadata))
    (name name2 : String) (hne : name2 ≠ name) :
    (meta.filter (fun p => p.1 ≠ name)).find? (fun p => p.1 = name2) =
      meta.find? (fun p => p.1 = name2) := by
  apply find?_filter_of_imp
  intro x hx
  simp only [decide_eq_true_eq] at hx
  simp only [hx]
  simp [hne]

theorem cleanupBody_other (env : GitEnv) (s : WtState)
    (metadata : WorktreeMetadata) (worktree_name : String)
    (delete_branch force : Bool) (name2 : String)
    (hne : name2 ≠ worktree_name) :
    get_worktree_metadata
      (cleanupBody env s metadata worktree_name delete_branch force).1 name2
      = get_worktree_metadata s name2 := by
  rw [cleanupBody]
  split
  · rename_i s1 e h1
    have hm1 := removeDirPhase_meta env s metadata force
    rw [h1] at hm1
    show get_worktree_metadata s1 name2 = get_worktree_metadata s name2
    rw [get_worktree_metadata, get_worktree_metadata, hm1.1]
  · rename_i s1 u h1
    have hm1 := removeDirPhase_meta env s metadata force
    rw [h1] at hm1
    split
    · rename_i s2 e h2
      have hm2 := deleteBranchPhase_meta env s1 metadata delete_branch force
      rw [h2] at hm2
      show get_worktree_metadata s2 name2 = get_worktree_metadata s name2
      rw [get_worktree_metadata, get_worktree_metadata, hm2.1, hm1.1]
    · rename_i s2 u2 h2
      have hm2 := deleteBranchPhase_meta env s1 metadata delete_branch force
      rw [h2] at hm2
      show get_worktree_metadata
        (archiveAndDeletePhase env s2 metadata worktree_name) name2 = _
      rw [get_worktree_metadata, get_worktree_metadata, archiveAndDeletePhase]
      simp only [archive_worktree_metadata]
      rw [find?_filter_ne _ _ _ hne, hm2.1, hm1.1]

/-- `cleanup_worktree` never touches the active record of another name. -/
theorem cleanup_worktree_other (env : GitEnv) (s : WtState)
    (worktree_name : String) (delete_branch force : Bool) (name2 : String)
    (hne : name2 ≠ worktree_name) :
    get_worktree_metadata (cleanup_worktree env s worktree_name delete_branch force).1
      name2 = get_worktree_metadata s name2 := by
  rw [cleanup_worktree]
  split
  · rfl
  · split
    · rfl
    · exact cleanupBody_other env s _ worktree_name delete_branch force name2 hne

theorem cleanupBody_ok (env : GitEnv) (s : WtState) (metadata : WorktreeMetadata)
    (worktree_name : String) (delete_branch force : Bool) (s2 : WtState)
    (h : cleanupBody env s metadata worktree_name delete_branch force
      = (s2, Except.ok ())) :
    s2.archive = s.archive ++
      [{ metadata with status := WtStatus.cleaned, cleaned_at := some env.now }] ∧
    get_worktree_metadata s2 worktree_name = none := by
  rw [cleanupBody] at h
  split at h
  · exact absurd (congrArg Prod.snd h) (by simp)
  · rename_i s1 u h1
    have hm1 := removeDirPhase_meta env s metadata force
    rw [h1] at hm1
    split at h
    · exact absurd (congrArg Prod.snd h) (by simp)
    · rename_i s3 u2 h2
      have hm2 := deleteBranchPhase_meta env s1 metadata delete_branch force
      rw [h2] at hm2
      have hs2 : archiveAndDeletePhase env s3 metadata worktree_name = s2 :=
        congrArg Prod.fst h
      rw [← hs2, archiveAndDeletePhase]
      simp only [archive_worktree_metadata]
      constructor
      · rw [hm2.2, hm1.2]
      · rw [get_worktree_metadata]
        have hnone : ((s3.archive ++
            [{ metadata with status := WtStatus.cleaned, cleaned_at := some env.now }],
            s3).2.meta.filter (fun p => p.1 ≠ worktree_name)).find?
            (fun p => p.1 = worktree_name) = none := by
          apply List.find?_eq_none.mpr
          intro x hx
          have hxq := List.of_mem_filter hx
          simp only [decide_eq_true_eq] at hxq ⊢
          exact hxq
        simp only [List.find?] at hnone ⊢
        rw [hnone]
        rfl

/-- Claim C4: with an active metadata record present, `cleanup_worktree`
on a non-terminal record without `force` raises and performs no mutation
at all (the returned state is the input state, so the active record is
untouched); and whenever the call completes successfully — terminal status
or `force = true` — the archive has gained exactly one snapshot of the
record stamped `status = cleaned` with the cleanup timestamp, and the
active record has been deleted. -/
theorem cleanup_worktree_spec (env : GitEnv) (s : WtState) (worktree_name : String)
    (delete_branch force : Bool) (md : WorktreeMetadata)
    (hmd : get_worktree_metadata s worktree_name = some md) :
    (md.status ∉ cleanupTerminalStates → force = false →
      cleanup_worktree env s worktree_name delete_branch force =
        (s, Except.error ("Worktree " ++ worktree_name ++
          " is in state. Use force=True to cleanup non-terminal state."))) ∧
    (∀ s2, cleanup_worktree env s worktree_name delete_branch force
        = (s2, Except.ok ()) →
      s2.archive = s.archive ++
        [{ md with status := WtStatus.cleaned, cleaned_at := some env.now }] ∧
      get_worktree_metadata s2 worktree_name = none) := by
  constructor
  · intro h1 h2
    simp only [cleanup_worktree, hmd]
    rw [if_pos ⟨h1, h2⟩]
  · intro s2 hok
    simp only [cleanup_worktree, hmd] at hok
    by_cases hgate : md.status ∉ cleanupTerminalStates ∧ force = false
    · rw [if_pos hgate] at hok
      exact absurd (congrArg Prod.snd hok) (by simp)
    · rw [if_neg hgate] at hok
      exact cleanupBody_ok env s md worktree_name delete_branch force s2 hok

/-- Concrete environment for the worktree witnesses: every external git or
filesystem command succeeds and the clock reads 100. -/
def wtEnv0 : GitEnv :=
  GitEnv.mk (fun _ => true) (fun _ => true) (fun _ => true) (fun _ => true) 100

/-- Concrete in-progress worktree record. -/
def wtMd0 : WorktreeMetadata :=
  WorktreeMetadata.mk "EPIC-007-api-a3f2b1" "EPIC-007" "api"
    "/repo/.worktrees/EPIC-007-api-a3f2b1" "feature/EPIC-007/api" "dev" none
    WtStatus.in_progress 0 none none none none none [] none

/-- Concrete store holding only `wtMd0`. -/
def wtS0 : WtState :=
  WtState.mk [("EPIC-007-api-a3f2b1", wtMd0)] []
    ["/repo/.worktrees/EPIC-007-api-a3f2b1"] ["feature/EPIC-007/api"]

/-- Witness for C4: cleaning the in-progress record without force raises
and leaves the store untouched; with force it succeeds, the archived
snapshot is stamped `cleaned` at time 100, and the active record is gone. -/
theorem cleanup_worktree_spec_witness :
    cleanup_worktree wtEnv0 wtS0 "EPIC-007-api-a3f2b1" false false =
      (wtS0, Except.error ("Worktree " ++ "EPIC-007-api-a3f2b1" ++
        " is in state. Use force=True to cleanup non-terminal state.")) ∧
    ((cleanup_worktree wtEnv0 wtS0 "EPIC-007-api-a3f2b1" false true).1.archive =
      wtS0.archive ++
        [{ wtMd0 with status := WtStatus.cleaned, cleaned_at := some 100 }] ∧
     get_worktree_metadata
       (cleanup_worktree wtEnv0 wtS0 "EPIC-007-api-a3f2b1" false true).1
       "EPIC-007-api-a3f2b1" = none) :=
  ⟨(cleanup_worktree_spec wtEnv0 wtS0 "EPIC-007-api-a3f2b1" false false wtMd0
      rfl).1 (by decide) rfl,
   (cleanup_worktree_spec wtEnv0 wtS0 "EPIC-007-api-a3f2b1" false true wtMd0
      rfl).2 _ rfl⟩

/-- Counterexample for C9: with no active metadata record for the name,
`cleanup_worktree` logs a warning and returns successfully (`return None`)
instead of failing. -/
theorem cleanup_worktree_missing_counterexample :
    cleanup_worktree wtEnv0 (WtState.mk [] [] [] []) "ghost" false false =
      (WtState.mk [] [] [] [], Except.ok ()) := rfl

/-- Claim C9 (amended): for a worktree name with no active metadata record,
`cleanup_worktree` returns successfully without raising and without
touching any state (the missing-record branch logs a warning and returns
`None`). -/
theorem cleanup_worktree_missing_spec (env : GitEnv) (s : WtState)
    (worktree_name : String) (delete_branch force : Bool)
    (h : get_worktree_metadata s worktree_name = none) :
    cleanup_worktree env s worktree_name delete_branch force
      = (s, Except.ok ()) := by
  simp only [cleanup_worktree, h]

/-- Witness for C9 (amended): a store that holds some other record. -/
theorem cleanup_worktree_missing_spec_witness :
    cleanup_worktree wtEnv0 wtS0 "no-such-worktree" true true
      = (wtS0, Except.ok ()) :=
  cleanup_worktree_missing_spec wtEnv0 wtS0 "no-such-worktree" true true rfl

theorem get_save (s : WtState) (md : WorktreeMetadata) :
    get_worktree_metadata (save_worktree_metadata s md) md.name = some md := by
  rw [get_worktree_metadata, save_worktree_metadata]
  simp only
  rw [List.find?_append]
  have hnone : (s.meta.filter (fun p => p.1 ≠ md.name)).find?
      (fun p => p.1 = md.name) = none := by
    apply List.find?_eq_none.mpr
    intro x hx
    have hxq := List.of_mem_filter hx
    simp only [decide_eq_true_eq] at hxq ⊢
    exact hxq
  rw [hnone]
  simp [List.find?]

/-- Claim C6: `create_worktree_for_agent` persists a metadata record only
after the `git worktree add` call succeeds.  When the VCS operation fails
the function raises and returns the input state unchanged — in particular
no metadata record exists for the new name — so no metadata-without-
worktree orphan is created; when it succeeds, the persisted record has
status `created` and its path is one the VCS call accepted. -/
theorem create_worktree_for_agent_spec (env : GitEnv) (s : WtState)
    (epic_id task_name base_branch project_root short_id : String) :
    (env.addOk (project_root ++ "/.worktrees/" ++
        (epic_id ++ "-" ++ sanitize_name task_name ++ "-" ++ short_id)) = false →
      create_worktree_for_agent env s epic_id task_name base_branch project_root
        short_id = (s, Except.error "Git worktree creation failed")) ∧
    (∀ s2 md, create_worktree_for_agent env s epic_id task_name base_branch
        project_root short_id = (s2, Except.ok md) →
      md.status = WtStatus.created ∧
      get_worktree_metadata s2 md.name = some md ∧
      env.addOk md.path = true) := by
  constructor
  · intro h
    rw [create_worktree_for_agent]
    simp only
    rw [if_pos h]
  · intro s2 md hok
    rw [create_worktree_for_agent] at hok
    simp only at hok
    by_cases hadd : env.addOk (project_root ++ "/.worktrees/" ++
        (epic_id ++ "-" ++ sanitize_name task_name ++ "-" ++ short_id)) = false
    · rw [if_pos hadd] at hok
      exact absurd (congrArg Prod.snd hok) (by simp)
    · rw [if_neg hadd] at hok
      have hmd : _ = md := Option.some.inj (by
        have := congrArg Prod.snd hok
        simpa using this)
      have hs2 := congrArg Prod.fst hok
      simp only at hs2
      rw [← hs2, ← hmd]
      refine ⟨rfl, get_save _ _, ?_⟩
      simp only
      exact Bool.not_eq_false _ |>.mp hadd

/-- The record `create_worktree_for_agent` builds for the witness inputs. -/
def createMd0 : WorktreeMetadata :=
  WorktreeMetadata.mk "EPIC-008-backend-api-deadbeef" "EPIC-008" "Backend API"
    "/repo/.worktrees/EPIC-008-backend-api-deadbeef" "feature/EPIC-008/backend-api"
    "dev" none WtStatus.created 100 none none none none none [] none

/-- Witness for C6: creating a worktree for "Backend API" under an
environment where `git worktree add` succeeds persists the record with
status `created`. -/
theorem create_worktree_for_agent_spec_witness :
    createMd0.status = WtStatus.created ∧
    get_worktree_metadata
      (create_worktree_for_agent wtEnv0 (WtState.mk [] [] [] []) "EPIC-008"
        "Backend API" "dev" "/repo" "deadbeef").1 createMd0.name
      = some createMd0 ∧
    wtEnv0.addOk createMd0.path = true :=
  (create_worktree_for_agent_spec wtEnv0 (WtState.mk [] [] [] []) "EPIC-008"
    "Backend API" "dev" "/repo" "deadbeef").2 _ createMd0 rfl

/-! ### Counting lemmas for the bulk cleanup folds -/

theorem cleanupFold_le (env : GitEnv) (db force : Bool) :
    ∀ (l : List WorktreeMetadata) (st : WtState) (c : Nat),
    (l.foldl (fun acc wt =>
      match cleanup_worktree env acc.1 wt.name db force with
      | (s2, Except.ok _) => (s2, acc.2 + 1)
      | (s2, Except.error _) => (s2, acc.2)) (st, c)).2 ≤ c + l.length := by
  intro l
  induction l with
  | nil => intro st c; simp
  | cons wt t ih =>
    intro st c
    simp only [List.foldl_cons]
    rcases h : cleanup_worktree env st wt.name db force with ⟨s2, r⟩
    cases r with
    | ok u =>
      have := ih s2 (c + 1)
      simp only [List.length_cons]
      omega
    | error e =>
      have := ih s2 c
      simp only [List.length_cons]
      omega

theorem cleanupFold_other (env : GitEnv) (db force : Bool) :
    ∀ (l : List WorktreeMetadata) (st : WtState) (c : Nat) (name2 : String),
    (∀ wt ∈ l, wt.name ≠ name2) →
    get_worktree_metadata ((l.foldl (fun acc wt =>
      match cleanup_worktree env acc.1 wt.name db force with
      | (s2, Except.ok _) => (s2, acc.2 + 1)
      | (s2, Except.error _) => (s2, acc.2)) (st, c)).1) name2
      = get_worktree_metadata st name2 := by
  intro l
  induction l with
  | nil => intro st c name2 _; simp
  | cons wt t ih =>
    intro st c name2 hname
    simp only [List.foldl_cons]
    rcases h : cleanup_worktree env st wt.name db force with ⟨s2, r⟩
    have hother : get_worktree_metadata s2 name2 = get_worktree_metadata st name2 := by
      have h2 := cleanup_worktree_other env st wt.name db force name2
        (Ne.symm (hname wt (List.mem_cons_self wt t)))
      rw [h] at h2
      exact h2
    cases r with
    | ok u =>
      rw [ih s2 (c + 1) name2 (fun w hw => hname w (List.mem_cons_of_mem wt hw))]
      exact hother
    | error e =>
      rw [ih s2 c name2 (fun w hw => hname w (List.mem_cons_of_mem wt hw))]
      exact hother

theorem cleanupFoldStats_sum (env : GitEnv) (db ia : Bool) :
    ∀ (l : List WorktreeMetadata) (st : WtState) (c1 c2 : Nat),
    ((l.foldl (fun acc wt =>
      match cleanup_worktree env acc.1 wt.name db ia with
      | (s2, Except.ok _) => (s2, acc.2.1 + 1, acc.2.2)
      | (s2, Except.error _) => (s2, acc.2.1, acc.2.2 + 1)) (st, c1, c2)).2.1 +
     (l.foldl (fun acc wt =>
      match cleanup_worktree env acc.1 wt.name db ia with
      | (s2, Except.ok _) => (s2, acc.2.1 + 1, acc.2.2)
      | (s2, Except.error _) => (s2, acc.2.1, acc.2.2 + 1)) (st, c1, c2)).2.2)
      = c1 + c2 + l.length := by
  intro l
  induction l with
  | nil => intro st c1 c2; simp
  | cons wt t ih =>
    intro st c1 c2
    simp only [List.foldl_cons]
    rcases h : cleanup_worktree env st wt.name db ia with ⟨s2, r⟩
    cases r with
    | ok u =>
      have := ih s2 (c1 + 1) c2
      simp only [List.length_cons]
      omega
    | error e =>
      have := ih s2 c1 (c2 + 1)
      simp only [List.length_cons]
      omega

/-- Counterexample for C7: `cleanup_epic_worktrees` returns a single
integer (the cleaned count), not `{total, cleaned, failed}` aggregates:
two scenarios with different candidate totals and different failure counts
produce the same return value, so the return cannot carry the aggregates.
Scenario one: one completed worktree, cleanup succeeds (total 1, failed 0).
Scenario two: two completed worktrees, the second one's `git worktree
remove` fails (total 2, failed 1).  Both calls return `1`. -/
theorem cleanup_epic_worktrees_counterexample :
    (cleanup_epic_worktrees wtEnv0
      (WtState.mk [("A1", WorktreeMetadata.mk "A1" "E" "t" "/w/A1" "b/A1" "dev" none
        WtStatus.completed 1 none none none none none [] none)] [] ["/w/A1"] ["b/A1"])
      "E" false).2 =
    (cleanup_epic_worktrees
      (GitEnv.mk (fun p => decide (p ≠ "/w/B2")) (fun _ => true) (fun _ => true)
        (fun _ => true) 100)
      (WtState.mk
        [("B1", WorktreeMetadata.mk "B1" "E" "t" "/w/B1" "b/B1" "dev" none
          WtStatus.completed 2 none none none none none [] none),
         ("B2", WorktreeMetadata.mk "B2" "E" "t" "/w/B2" "b/B2" "dev" none
          WtStatus.completed 1 none none none none none [] none)]
        [] ["/w/B1", "/w/B2"] ["b/B1", "b/B2"])
      "E" false).2 ∧
    ((list_worktrees
      (WtState.mk [("A1", WorktreeMetadata.mk "A1" "E" "t" "/w/A1" "b/A1" "dev" none
        WtStatus.completed 1 none none none none none [] none)] [] ["/w/A1"] ["b/A1"])
      (some "E") none).filter (fun wt =>
        wt.status ∈ [WtStatus.completed, WtStatus.merged, WtStatus.failed])).length = 1 ∧
    ((list_worktrees
      (WtState.mk
        [("B1", WorktreeMetadata.mk "B1" "E" "t" "/w/B1" "b/B1" "dev" none
          WtStatus.completed 2 none none none none none [] none),
         ("B2", WorktreeMetadata.mk "B2" "E" "t" "/w/B2" "b/B2" "dev" none
          WtStatus.completed 1 none none none none none [] none)]
        [] ["/w/B1", "/w/B2"] ["b/B1", "b/B2"])
      (some "E") none).filter (fun wt =>
        wt.status ∈ [WtStatus.completed, WtStatus.merged, WtStatus.failed])).length = 2
    := by
  refine ⟨?_, by decide, by decide⟩
  decide

/-- Claim C7 (amended): the bulk cleanups never abort on an individual
failure — they are total functions whose folds visit every candidate, and
every attempted item is accounted for.  `cleanup_all_worktrees` returns
the aggregate statistics: `total` is exactly the number of candidates
(all worktrees, restricted to terminal states unless `include_active`) and
`cleaned + failed = total`.  `cleanup_epic_worktrees`, however, returns
only the cleaned count (bounded by its candidate count), not a
`{total, cleaned, failed}` aggregate. -/
theorem bulk_cleanup_spec (env : GitEnv) (s : WtState) (epic_id : String)
    (db ia db2 : Bool) :
    ((cleanup_epic_worktrees env s epic_id db).2 ≤
      ((list_worktrees s (some epic_id) none).filter (fun wt =>
        wt.status ∈ [WtStatus.completed, WtStatus.merged, WtStatus.failed])).length) ∧
    ((cleanup_all_worktrees env s ia db2).2.total =
      (if ia = false then
        (list_worktrees s none none).filter (fun wt =>
          wt.status ∈ [WtStatus.completed, WtStatus.merged, WtStatus.failed])
      else list_worktrees s none none).length) ∧
    ((cleanup_all_worktrees env s ia db2).2.cleaned +
      (cleanup_all_worktrees env s ia db2).2.failed =
      (cleanup_all_worktrees env s ia db2).2.total) := by
  refine ⟨?_, ?_, ?_⟩
  · simp only [cleanup_epic_worktrees]
    split
    · simp
    · have := cleanupFold_le env db false
        ((list_worktrees s (some epic_id) none).filter (fun wt =>
          wt.status ∈ [WtStatus.completed, WtStatus.merged, WtStatus.failed])) s 0
      simpa using this
  · rfl
  · simp only [cleanup_all_worktrees]
    have := cleanupFoldStats_sum env db2 ia
      (if ia = false then
        (list_worktrees s none none).filter (fun wt =>
          wt.status ∈ [WtStatus.completed, WtStatus.merged, WtStatus.failed])
      else list_worktrees s none none) s 0 0
    simpa using this

/-- Claim C8: the abandonment sweep selects exactly the records whose
status is non-terminal (`created`, `assigned` or `in_progress`) and whose
age reference — `completed_at` if present, else `assigned_at`, else
`created_at` — is strictly older than `now - max_age_days`; every record
outside that selection (non-terminal but recent, or terminal) keeps its
active metadata record untouched; and individual cleanup failures never
abort the sweep, whose cleaned count never exceeds the selection size. -/
theorem cleanup_abandoned_spec (env : GitEnv) (s : WtState) (max_age_days : Int) :
    (∀ wt, wt ∈ abandonedCandidates env s max_age_days ↔
      (wt ∈ list_worktrees s none none ∧
        (wt.status = WtStatus.created ∨ wt.status = WtStatus.assigned ∨
          wt.status = WtStatus.in_progress) ∧
        abandonedCheckDate wt < env.now - max_age_days * 86400)) ∧
    (∀ name2, (∀ wt ∈ abandonedCandidates env s max_age_days, wt.name ≠ name2) →
      get_worktree_metadata (cleanup_abandoned_worktrees env s max_age_days).1 name2
        = get_worktree_metadata s name2) ∧
    ((cleanup_abandoned_worktrees env s max_age_days).2 ≤
      (abandonedCandidates env s max_age_days).length) := by
  refine ⟨?_, ?_, ?_⟩
  · intro wt
    rw [abandonedCandidates]
    simp only [List.mem_filter, Bool.and_eq_true, decide_eq_true_eq, List.mem_cons,
      List.mem_singleton, List.not_mem_nil, or_false]
  · intro name2 hname
    simp only [cleanup_abandoned_worktrees]
    split
    · rfl
    · exact cleanupFold_other env true true (abandonedCandidates env s max_age_days)
        s 0 name2 hname
  · simp only [cleanup_abandoned_worktrees]
    split
    · simp
    · have := cleanupFold_le env true true (abandonedCandidates env s max_age_days) s 0
      simpa using this

/-- Witness for C8: the sweep at `max_age_days = 7` with a single
in-progress record created at time 0 and the clock far past the cutoff;
the record of an unrelated name is untouched. -/
theorem cleanup_abandoned_spec_witness :
    get_worktree_metadata
      (cleanup_abandoned_worktrees
        (GitEnv.mk (fun _ => true) (fun _ => true) (fun _ => true) (fun _ => true)
          1000000)
        wtS0 7).1 "unrelated-name"
      = get_worktree_metadata wtS0 "unrelated-name" :=
  (cleanup_abandoned_spec
    (GitEnv.mk (fun _ => true) (fun _ => true) (fun _ => true) (fun _ => true)
      1000000) wtS0 7).2.1 "unrelated-name" (by decide)

/-! ### Parallel viability analyzer (implementation/parallel_detection.py)

The `DOMAIN_RULES` regular expressions fall into three shapes, which are
embedded as an explicit pattern datatype with `re.search(..., IGNORECASE)`
semantics:
  - `^lit`      : the path starts with `lit`;
  - `lit$`      : the path ends with `lit` (an optional trailing `x?` such
                  as `\.tsx?$` is expanded into the two suffix patterns
                  `.tsx` / `.ts`, which changes neither `classify_file`,
                  which takes any match within the domain, nor
                  `calculate_file_overlap`, which counts each domain at
                  most once per file);
  - `mid.*lit$` : the path ends with `lit` and contains `mid` ending no
                  later than where the suffix starts.
All comparisons are on lowercased strings, mirroring `re.IGNORECASE`. -/

/-- The three shapes of pattern used by `DOMAIN_RULES`. -/
inductive PathPat : Type
  | startsWith (p : String)
  | endsWith (s : String)
  | containsThenEnds (mid suffix : String)
deriving DecidableEq

/-- Does `needle` occur as a contiguous sublist of `hay`? -/
def isSubList (needle hay : List Char) : Bool :=
  match hay with
  | [] => needle.isEmpty
  | _ :: t => needle.isPrefixOf hay || isSubList needle t

/-- `re.search(pattern, file_path, re.IGNORECASE)` for the three shapes,
computed on lowercased character lists. -/
def patMatches (pat : PathPat) (file_path : String) : Bool :=
  let f := file_path.data.map Char.toLower
  match pat with
  | PathPat.startsWith p => (p.data.map Char.toLower).isPrefixOf f
  | PathPat.endsWith s => (s.data.map Char.toLower).isSuffixOf f
  | PathPat.containsThenEnds mid suffix =>
    (suffix.data.map Char.toLower).isSuffixOf f &&
      isSubList (mid.data.map Char.toLower) (f.take (f.length - suffix.data.length))

/-- `DOMAIN_RULES`, in the dict's (insertion) order: backend, frontend,
database, tests, docs. -/
def DOMAIN_RULES : List (String × List PathPat) :=
  [("backend",
    [PathPat.startsWith "src/backend/", PathPat.startsWith "src/api/",
     PathPat.startsWith "src/services/", PathPat.startsWith "src/models/",
     PathPat.startsWith "backend/", PathPat.startsWith "api/",
     PathPat.startsWith "services/", PathPat.startsWith "models/",
     PathPat.endsWith ".service.py", PathPat.endsWith ".controller.py",
     PathPat.endsWith ".router.py"]),
   ("frontend",
    [PathPat.startsWith "src/frontend/", PathPat.startsWith "src/components/",
     PathPat.startsWith "src/pages/", PathPat.startsWith "src/ui/",
     PathPat.startsWith "frontend/", PathPat.startsWith "components/",
     PathPat.startsWith "pages/", PathPat.startsWith "ui/",
     PathPat.endsWith ".tsx", PathPat.endsWith ".ts",
     PathPat.endsWith ".jsx", PathPat.endsWith ".js",
     PathPat.endsWith ".vue", PathPat.endsWith ".svelte"]),
   ("database",
    [PathPat.startsWith "migrations/", PathPat.startsWith "alembic/",
     PathPat.startsWith "src/database/", PathPat.startsWith "src/schemas/",
     PathPat.startsWith "database/", PathPat.startsWith "schemas/",
     PathPat.containsThenEnds "migration" ".py", PathPat.endsWith ".sql"]),
   ("tests",
    [PathPat.startsWith "tests/", PathPat.startsWith "test/",
     PathPat.containsThenEnds "test_" ".py", PathPat.endsWith "_test.py",
     PathPat.endsWith ".test.ts", PathPat.endsWith ".spec.ts"]),
   ("docs",
    [PathPat.startsWith "docs/", PathPat.startsWith "documentation/",
     PathPat.containsThenEnds "README" ".md", PathPat.endsWith ".md",
     PathPat.endsWith ".rst"])]

/-- `classify_file`: first domain (in rule order) one of whose patterns
matches; `other` when none does. -/
def classify_file (file_path : String) : String :=
  match DOMAIN_RULES.find? (fun rule => rule.2.any (fun pat => patMatches pat file_path)) with
  | some rule => rule.1
  | none => "other"

/-- One `domains[domain].append(file)` step (creating the key on first
use), dict insertion order preserved. -/
def dictAppend (d : List (String × List String)) (k v : String) :
    List (String × List String) :=
  if d.any (fun p => p.1 = k) then
    d.map (fun p => if p.1 = k then (p.1, p.2 ++ [v]) else p)
  else d ++ [(k, [v])]

/-- `classify_files`: bucket the files by domain in encounter order. -/
def classify_files (files : List String) : List (String × List String) :=
  files.foldl (fun domains file => dictAppend domains (classify_file file) file) []

/-- Number of domains whose pattern set matches the file (each domain
counted at most once, the inner `break` of the source). -/
def countMatchingDomains (file : String) : Nat :=
  (DOMAIN_RULES.filter (fun rule => rule.2.any (fun pat => patMatches pat file))).length

/-- `calculate_file_overlap`: the percentage of files matching more than
one domain's patterns, rounded to one decimal place.  `round(x, 1)` for
the nonnegative value `x = s/n * 100` is written out over the integers:
the result in tenths of a percent is `⌊1000*s/n + 1/2⌋ = (2000*s + n) / (2*n)`
(the tie-breaking direction of Python's float rounding is immaterial to
the claims). -/
def calculate_file_overlap (domains : List (String × List String)) : Rat :=
  let all_files := (domains.map Prod.snd).flatten
  if all_files.isEmpty then 0
  else
    let shared_count := (all_files.filter (fun f => 1 < countMatchingDomains f)).length
    let tenths := (2000 * shared_count + all_files.length) / (2 * all_files.length)
    mkRat tenths 10

/-- The fixed description table of `generate_task_description`. -/
def taskDescriptions : List (String × String) :=
  [("backend", "Backend API implementation"),
   ("frontend", "Frontend UI implementation"),
   ("database", "Database schema and migrations"),
   ("tests", "Test suite implementation"),
   ("docs", "Documentation updates"),
   ("other", "Additional implementation tasks")]

/-- `generate_task_description(domain, files)`. -/
def generate_task_description (domain : String) (files : List String) : String :=
  let base_desc := ((taskDescriptions.find? (fun p => p.1 = domain)).map
    Prod.snd).getD "Implementation tasks"
  let file_count := files.length
  base_desc ++ " (" ++ toString file_count ++ " file" ++
    (if file_count ≠ 1 then "s" else "") ++ ")"

/-- `ParallelTask`. -/
structure ParallelTask : Type where
  files : List String
  task_description : String
deriving DecidableEq

/-- `ParallelPlan` (the transient result record). -/
structure ParallelPlan : Type where
  viable : Bool
  reason : String
  file_count : Nat
  domain_count : Nat
  domains : List (String × List String)
  file_overlap_percentage : Rat
  recommendation : String
  parallel_plan : Option (List (String × ParallelTask))
deriving DecidableEq

/-- `", ".join(parts)`. -/
def joinSep (sep : String) : List String → String
  | [] => ""
  | [x] => x
  | x :: xs => x ++ sep ++ joinSep sep xs

/-- `analyze_parallel_viability`, modelled from the point where
`parse_file_tasks` has produced the file list; the `FileNotFoundError` and
parse-exception branches return fixed non-viable plans before this logic
runs and are outside claim C5 (which quantifies over the parsed list). -/
def analyze_parallel_viability (files : List String) (min_files min_domains : Nat)
    (max_overlap_percentage : Rat) : ParallelPlan :=
  let domains := classify_files files
  let analysis_domains := domains.filter (fun p => p.1 ≠ "other")
  let file_count := files.length
  let domain_count := analysis_domains.length
  let file_overlap := calculate_file_overlap domains
  let c1 := decide (file_count < min_files)
  let c2 := decide (domain_count < min_domains)
  let c3 := decide (max_overlap_percentage < file_overlap)
  let criteria :=
    (if c1 then ["too few files (" ++ toString file_count ++ " < " ++
      toString min_files ++ ")"] else []) ++
    (if c2 then ["too few domains (" ++ toString domain_count ++ " < " ++
      toString min_domains ++ ")"] else []) ++
    (if c3 then ["high overlap (" ++ toString file_overlap ++ "% > " ++
      toString max_overlap_percentage ++ "%)"] else [])
  let viable := !c1 && !c2 && !c3
  let reason :=
    if viable then
      toString file_count ++ " files across " ++ toString domain_count ++
        " domains with " ++ toString file_overlap ++ "% overlap"
    else "Not viable: " ++ joinSep ", " criteria
  let parallel_plan :=
    if viable then
      some (analysis_domains.map (fun p =>
        (p.1, ParallelTask.mk p.2 (generate_task_description p.1 p.2))))
    else none
  let recommendation := if viable then "parallel" else "sequential"
  ParallelPlan.mk viable reason file_count domain_count domains file_overlap
    recommendation parallel_plan

/-- The string `msg` occurs verbatim inside `r`. -/
def Mentioned (msg r : String) : Prop :=
  ∃ pre post : List Char, r.data = pre ++ (msg.data ++ post)

/-- A mention survives prepending text. -/
theorem Mentioned.prepend (m r p : String) (h : Mentioned m r) :
    Mentioned m (p ++ r) := by
  obtain ⟨pre, post, hd⟩ := h
  exact ⟨p.data ++ pre, post, by simp [hd]⟩

/-- A mention survives appending text. -/
theorem Mentioned.extend (m r p : String) (h : Mentioned m r) :
    Mentioned m (r ++ p) := by
  obtain ⟨pre, post, hd⟩ := h
  exact ⟨pre, post ++ p.data, by simp [hd]⟩

/-- Every string mentions itself. -/
theorem Mentioned.refl (m : String) : Mentioned m m :=
  ⟨[], [], by simp⟩

/-- Each part of a joined list is mentioned in the join. -/
theorem joinSep_mentioned (sep : String) :
    ∀ (parts : List String) (m : String), m ∈ parts →
      Mentioned m (joinSep sep parts) := by
  intro parts
  induction parts with
  | nil => intro m hm; cases hm
  | cons x xs ih =>
    intro m hm
    rcases List.mem_cons.mp hm with h | h
    · subst h
      cases xs with
      | nil => exact Mentioned.refl m
      | cons y ys =>
        show Mentioned m (m ++ sep ++ joinSep sep (y :: ys))
        exact Mentioned.extend _ _ _ (Mentioned.extend _ _ _ (Mentioned.refl m))
    · cases xs with
      | nil => cases h
      | cons y ys =>
        show Mentioned m (x ++ sep ++ joinSep sep (y :: ys))
        exact Mentioned.prepend _ _ _ (ih m h)

/-- The viability flag holds exactly when all three thresholds are met. -/
theorem apv_viable_iff (files : List String) (min_files min_domains : Nat)
    (max_overlap : Rat) :
    (analyze_parallel_viability files min_files min_domains max_overlap).viable = true ↔
      min_files ≤ files.length ∧
      min_domains ≤ ((classify_files files).filter (fun p => p.1 ≠ "other")).length ∧
      calculate_file_overlap (classify_files files) ≤ max_overlap := by
  simp only [analyze_parallel_viability]
  simp only [Bool.and_eq_true, Bool.not_eq_true', decide_eq_false_iff_not, not_lt,
    and_assoc]

/-- When viable, the recommendation is parallel and the emitted plan has
one task per non-other domain bucket. -/
theorem apv_viable_outputs (files : List String) (min_files min_domains : Nat)
    (max_overlap : Rat)
    (h : (analyze_parallel_viability files min_files min_domains max_overlap).viable = true) :
    (analyze_parallel_viability files min_files min_domains max_overlap).recommendation
        = "parallel" ∧
    (analyze_parallel_viability files min_files min_domains max_overlap).parallel_plan =
      some (((analyze_parallel_viability files min_files min_domains max_overlap).domains.filter
          (fun p => p.1 ≠ "other")).map
        (fun p => (p.1, ParallelTask.mk p.2 (generate_task_description p.1 p.2)))) := by
  by_cases h1 : files.length < min_files <;>
    by_cases h2 : ((classify_files files).filter (fun p => p.1 ≠ "other")).length < min_domains <;>
      by_cases h3 : max_overlap < calculate_file_overlap (classify_files files) <;>
        simp only [analyze_parallel_viability, h1, h2, h3, decide_True, decide_False,
          Bool.not_true, Bool.not_false, Bool.and_true, Bool.and_false, Bool.true_and,
          Bool.false_and, Bool.false_eq_true, eq_self_iff_true, if_true, if_false,
          true_and, and_true] at h ⊢ <;>
        trivial

/-- When not viable, the recommendation is sequential and the reason
mentions every failed criterion, with the messages emitted by the code. -/
theorem apv_not_viable_outputs (files : List String) (min_files min_domains : Nat)
    (max_overlap : Rat)
    (h : (analyze_parallel_viability files min_files min_domains max_overlap).viable = false) :
    (analyze_parallel_viability files min_files min_domains max_overlap).recommendation
        = "sequential" ∧
    (files.length < min_files →
      Mentioned ("too few files (" ++ toString files.length ++ " < " ++
          toString min_files ++ ")")
        (analyze_parallel_viability files min_files min_domains max_overlap).reason) ∧
    (((classify_files files).filter (fun p => p.1 ≠ "other")).length < min_domains →
      Mentioned ("too few domains (" ++
          toString ((classify_files files).filter (fun p => p.1 ≠ "other")).length ++
          " < " ++ toString min_domains ++ ")")
        (analyze_parallel_viability files min_files min_domains max_overlap).reason) ∧
    (max_overlap < calculate_file_overlap (classify_files files) →
      Mentioned ("high overlap (" ++ toString (calculate_file_overlap (classify_files files)) ++
          "% > " ++ toString max_overlap ++ "%)")
        (analyze_parallel_viability files min_files min_domains max_overlap).reason) := by
  by_cases h1 : files.length < min_files <;>
    by_cases h2 : ((classify_files files).filter (fun p => p.1 ≠ "other")).length < min_domains <;>
      by_cases h3 : max_overlap < calculate_file_overlap (classify_files files) <;>
        simp only [analyze_parallel_viability, h1, h2, h3, decide_True, decide_False,
          Bool.not_true, Bool.not_false, Bool.and_true, Bool.and_false, Bool.true_and,
          Bool.false_and, Bool.true_eq_false, Bool.false_eq_true, eq_self_iff_true,
          if_true, if_false, List.append_nil, List.nil_append, List.singleton_append,
          List.cons_append, true_implies, false_implies, true_and, and_true,
          not_true, not_false_iff] at h ⊢ <;>
        first
        | trivial
        | exact Mentioned.prepend _ _ _ (joinSep_mentioned _ _ _ (by simp))
        | exact ⟨Mentioned.prepend _ _ _ (joinSep_mentioned _ _ _ (by simp)),
            Mentioned.prepend _ _ _ (joinSep_mentioned _ _ _ (by simp))⟩
        | exact ⟨Mentioned.prepend _ _ _ (joinSep_mentioned _ _ _ (by simp)),
            Mentioned.prepend _ _ _ (joinSep_mentioned _ _ _ (by simp)),
            Mentioned.prepend _ _ _ (joinSep_mentioned _ _ _ (by simp))⟩

/-- Claim C5: `analyze_parallel_viability` marks the plan viable iff the
file count reaches `min_files`, the domain count (excluding `other`)
reaches `min_domains`, and the overlap percentage is at most
`max_overlap`; when viable the recommendation is `parallel` and the
emitted plan holds exactly one task per non-`other` domain bucket; when
not viable the recommendation is `sequential` and the reason mentions
every criterion that failed. -/
theorem analyze_parallel_viability_spec (files : List String)
    (min_files min_domains : Nat) (max_overlap : Rat) :
    ((analyze_parallel_viability files min_files min_domains max_overlap).viable = true ↔
      min_files ≤ (analyze_parallel_viability files min_files min_domains max_overlap).file_count ∧
      min_domains ≤ (analyze_parallel_viability files min_files min_domains max_overlap).domain_count ∧
      (analyze_parallel_viability files min_files min_domains max_overlap).file_overlap_percentage
        ≤ max_overlap) ∧
    ((analyze_parallel_viability files min_files min_domains max_overlap).viable = true →
      (analyze_parallel_viability files min_files min_domains max_overlap).recommendation
          = "parallel" ∧
      (analyze_parallel_viability files min_files min_domains max_overlap).parallel_plan =
        some (((analyze_parallel_viability files min_files min_domains max_overlap).domains.filter
            (fun p => p.1 ≠ "other")).map
          (fun p => (p.1, ParallelTask.mk p.2 (generate_task_description p.1 p.2))))) ∧
    ((analyze_parallel_viability files min_files min_domains max_overlap).viable = false →
      (analyze_parallel_viability files min_files min_domains max_overlap).recommendation
          = "sequential" ∧
      ((analyze_parallel_viability files min_files min_domains max_overlap).file_count < min_files →
        Mentioned ("too few files (" ++
            toString (analyze_parallel_viability files min_files min_domains max_overlap).file_count
            ++ " < " ++ toString min_files ++ ")")
          (analyze_parallel_viability files min_files min_domains max_overlap).reason) ∧
      ((analyze_parallel_viability files min_files min_domains max_overlap).domain_count
          < min_domains →
        Mentioned ("too few domains (" ++
            toString (analyze_parallel_viability files min_files min_domains max_overlap).domain_count
            ++ " < " ++ toString min_domains ++ ")")
          (analyze_parallel_viability files min_files min_domains max_overlap).reason) ∧
      (max_overlap <
          (analyze_parallel_viability files min_files min_domains max_overlap).file_overlap_percentage →
        Mentioned ("high overlap (" ++
            toString (analyze_parallel_viability files min_files min_domains max_overlap).file_overlap_percentage
            ++ "% > " ++ toString max_overlap ++ "%)")
          (analyze_parallel_viability files min_files min_domains max_overlap).reason)) :=
  ⟨apv_viable_iff files min_files min_domains max_overlap,
   apv_viable_outputs files min_files min_domains max_overlap,
   apv_not_viable_outputs files min_files min_domains max_overlap⟩

/-- Six files split evenly across the backend and frontend domains. -/
def pvFiles6 : List String :=
  ["backend/a.py", "backend/b.py", "backend/c.py",
   "frontend/x.css", "frontend/y.css", "frontend/z.css"]

/-- Witness for C5: six files split across backend and frontend with no
overlap meet the default thresholds (5, 2, 30), so the plan is viable and
the recommendation is parallel. -/
theorem analyze_parallel_viability_spec_witness :
    (analyze_parallel_viability pvFiles6 5 2 30).viable = true ∧
    (analyze_parallel_viability pvFiles6 5 2 30).recommendation = "parallel" := by
  have h := analyze_parallel_viability_spec pvFiles6 5 2 30
  have hv : (analyze_parallel_viability pvFiles6 5 2 30).viable = true :=
    h.1.mpr (by decide)
  exact ⟨hv, (h.2.1 hv).1⟩
